import Mathlib

/-!
Verification of the maze-solver core (src/maze_solver.py).

The Python program keeps a 15 x 15 matrix `self.maze` of ints (0 = open,
1 = wall), optional `self.start` / `self.end` cell coordinates, and solves
with a binary-heap Dijkstra (`dijkstra`).  This file gives a shallow
embedding of that core:

* grids are `List (List Nat)` exactly like the Python list-of-lists;
* the heap `pq` is modeled as a list of `(d, x, y)` entries from which
  `popMin` extracts the lexicographically least entry — Python's `heapq`
  pops the least tuple `(d, (x, y))`, so the two agree at the level of
  values (equal tuples are indistinguishable);
* `float('inf')` distances are `Option Nat` with `none` as infinity;
* the `while pq:` loop is written with an explicit fuel argument so the
  definition is executable by the kernel; the fuel `2*rows*cols + 1`
  is proved sufficient below (each heap push provably fills a previously
  infinite cell, so iterations are bounded);
* Python's mutation of the caller-visible `maze` object is modeled by
  threading the grid through the search state, so the frame property of
  the search is a theorem about the final state rather than a convention.
-/

namespace MazeSolver

/-! ### Grid primitives: list-of-list indexing, as in the Python source -/

/-- Read cell `(i, j)` of a list-of-lists matrix: `m[i][j]`.
`none` means the index pair is out of range. -/
def idx2 {α : Type} (m : List (List α)) (i j : ℕ) : Option α :=
  m[i]?.bind (fun row => row[j]?)

/-- Write cell `(i, j)` of a list-of-lists matrix: `m[i][j] = a`.
Out-of-range writes leave the matrix unchanged (they cannot arise at the
call sites, which are guarded by bounds checks). -/
def set2 {α : Type} (m : List (List α)) (i j : ℕ) (a : α) : List (List α) :=
  match m[i]? with
  | none => m
  | some row => m.set i (row.set j a)

/-- A fresh `rows x cols` matrix filled with `a`, like `[[a]*cols for _ in range(rows)]`. -/
def mkGrid {α : Type} (rows cols : ℕ) (a : α) : List (List α) :=
  List.replicate rows (List.replicate cols a)

/-- The matrix is rectangular with the stated dimensions. -/
abbrev Rect {α : Type} (m : List (List α)) (rows cols : ℕ) : Prop :=
  m.length = rows ∧ ∀ row ∈ m, row.length = cols

theorem idx2_isSome {α : Type} {m : List (List α)} {rows cols : ℕ}
    (hm : Rect m rows cols) {i j : ℕ} (hi : i < rows) (hj : j < cols) :
    ∃ a, idx2 m i j = some a := by
  obtain ⟨hlen, hrow⟩ := hm
  have hi' : i < m.length := by omega
  have hmem : m[i] ∈ m := List.getElem_mem hi'
  have hjlen : j < m[i].length := by rw [hrow _ hmem]; exact hj
  refine ⟨m[i][j], ?_⟩
  simp [idx2, List.getElem?_eq_getElem hi', List.getElem?_eq_getElem hjlen]

theorem idx2_bounds {α : Type} {m : List (List α)} {rows cols : ℕ}
    (hm : Rect m rows cols) {i j : ℕ} {a : α} (h : idx2 m i j = some a) :
    i < rows ∧ j < cols := by
  obtain ⟨hlen, hrow⟩ := hm
  unfold idx2 at h
  cases hri : m[i]? with
  | none => rw [hri] at h; simp at h
  | some row =>
    rw [hri] at h
    simp only [Option.some_bind] at h
    obtain ⟨hi, hg⟩ := List.getElem?_eq_some_iff.mp hri
    have hmem : row ∈ m := hg ▸ List.getElem_mem hi
    have hj : j < row.length := (List.getElem?_eq_some_iff.mp h).1
    rw [hrow _ hmem] at hj
    omega

theorem rect_set2 {α : Type} {m : List (List α)} {rows cols : ℕ}
    (hm : Rect m rows cols) (i j : ℕ) (a : α) :
    Rect (set2 m i j a) rows cols := by
  obtain ⟨hlen, hrow⟩ := hm
  unfold set2
  cases hri : m[i]? with
  | none => exact ⟨hlen, hrow⟩
  | some row =>
    constructor
    · simpa using hlen
    · intro r hr
      rcases List.mem_or_eq_of_mem_set hr with hmem | heq
      · exact hrow _ hmem
      · subst heq
        obtain ⟨hi, hg⟩ := List.getElem?_eq_some_iff.mp hri
        have hmem : row ∈ m := hg ▸ List.getElem_mem hi
        simpa using hrow _ hmem

theorem idx2_set2_self {α : Type} {m : List (List α)} {i j : ℕ} {b : α}
    (h : idx2 m i j = some b) (a : α) :
    idx2 (set2 m i j a) i j = some a := by
  unfold idx2 set2 at *
  cases hri : m[i]? with
  | none => rw [hri] at h; simp at h
  | some row =>
    rw [hri] at h
    simp only [Option.some_bind] at h
    have hi : i < m.length := (List.getElem?_eq_some_iff.mp hri).1
    have hj : j < row.length := (List.getElem?_eq_some_iff.mp h).1
    have h1 : (m.set i (row.set j a))[i]? = some (row.set j a) :=
      List.getElem?_set_self (by simpa using hi)
    rw [h1]
    simp [List.getElem?_set_self (by simpa using hj)]

theorem idx2_set2_ne {α : Type} (m : List (List α)) (i j : ℕ) (a : α)
    {i' j' : ℕ} (h : (i', j') ≠ (i, j)) :
    idx2 (set2 m i j a) i' j' = idx2 m i' j' := by
  unfold idx2 set2
  cases hri : m[i]? with
  | none => rfl
  | some row =>
    by_cases hii : i' = i
    · subst hii
      have hjj : j' ≠ j := by intro hc; exact h (by simp [hc])
      have hi : i' < m.length := (List.getElem?_eq_some_iff.mp hri).1
      have h1 : (m.set i' (row.set j a))[i']? = some (row.set j a) :=
        List.getElem?_set_self (by simpa using hi)
      rw [h1, hri]
      simp [List.getElem?_set_ne (fun hc => hjj hc.symm)]
    · rw [List.getElem?_set_ne (fun hc => hii hc.symm)]

theorem idx2_mkGrid {α : Type} (rows cols : ℕ) (a : α) {i j : ℕ}
    (hi : i < rows) (hj : j < cols) :
    idx2 (mkGrid rows cols a) i j = some a := by
  unfold idx2 mkGrid
  rw [List.getElem?_replicate_of_lt hi]
  simp [List.getElem?_replicate_of_lt hj]

theorem rect_mkGrid {α : Type} (rows cols : ℕ) (a : α) :
    Rect (mkGrid rows cols a) rows cols := by
  constructor
  · simp [mkGrid]
  · intro row hrow
    simp only [mkGrid, List.mem_replicate] at hrow
    simp [hrow.2]

/-! ### Cells, adjacency and walkable paths (the vocabulary of the spec) -/

/-- Cell `(i, j)` of the grid is open (Python: `maze[i][j] == 0`). -/
abbrev openAt (maze : List (List ℕ)) (c : ℕ × ℕ) : Prop :=
  idx2 maze c.1 c.2 = some 0

/-- 4-adjacency: the two cells differ by exactly one unit in exactly one axis. -/
abbrev adjP (a b : ℕ × ℕ) : Prop :=
  (a.1 = b.1 ∧ (a.2 = b.2 + 1 ∨ b.2 = a.2 + 1)) ∨
  (a.2 = b.2 ∧ (a.1 = b.1 + 1 ∨ b.1 = a.1 + 1))

/-- A path as the spec describes one: a nonempty coordinate sequence from
`s` to `e`, consecutive cells 4-adjacent, every cell (including `s`) open. -/
abbrev OpenPath (maze : List (List ℕ)) (s e : ℕ × ℕ) (p : List (ℕ × ℕ)) : Prop :=
  p.head? = some s ∧ p.getLast? = some e ∧ List.Chain' adjP p ∧
  ∀ c ∈ p, openAt maze c

/-- A path as the engine actually traverses one: only cells after the first
must be open, because `dijkstra` relaxes into open neighbors but never
inspects the state of the cell a step leaves from (in particular it never
inspects `start`). -/
abbrev ReachPath (maze : List (List ℕ)) (s e : ℕ × ℕ) (p : List (ℕ × ℕ)) : Prop :=
  p.head? = some s ∧ p.getLast? = some e ∧ List.Chain' adjP p ∧
  ∀ c ∈ p.tail, openAt maze c

theorem openPath_reachPath {maze : List (List ℕ)} {s e : ℕ × ℕ} {p : List (ℕ × ℕ)}
    (h : OpenPath maze s e p) : ReachPath maze s e p :=
  ⟨h.1, h.2.1, h.2.2.1, fun c hc => h.2.2.2 c (List.mem_of_mem_tail hc)⟩

/-- Manhattan distance between two cells, `|r1 - r2| + |c1 - c2|`. -/
def manh (a b : ℕ × ℕ) : ℕ :=
  Nat.dist a.1 b.1 + Nat.dist a.2 b.2

theorem adjP_manh {a b : ℕ × ℕ} (h : adjP a b) : manh a b = 1 := by
  rcases h with ⟨h1, h2 | h2⟩ | ⟨h1, h2 | h2⟩ <;>
    · simp only [manh, Nat.dist, h1, h2]
      omega

theorem manh_triangle (a b c : ℕ × ℕ) : manh a c ≤ manh a b + manh b c := by
  have h1 := Nat.dist.triangle_inequality a.1 b.1 c.1
  have h2 := Nat.dist.triangle_inequality a.2 b.2 c.2
  simp only [manh]
  omega

/-- Any 4-adjacent chain from `s` to `e` uses at least `manh s e + 1` cells. -/
theorem manh_le_chain :
    ∀ (p : List (ℕ × ℕ)) (s e : ℕ × ℕ), List.Chain' adjP p →
      p.head? = some s → p.getLast? = some e → manh s e + 1 ≤ p.length := by
  intro p
  induction p with
  | nil => intro s e _ hh _; simp at hh
  | cons a t ih =>
    intro s e hchain hh hl
    have hsa : s = a := by simpa using hh.symm
    subst hsa
    cases t with
    | nil =>
      have : e = s := by simpa using hl.symm
      subst this
      simp [manh, Nat.dist_self]
    | cons b t' =>
      have hab : adjP s b := (List.chain'_cons.mp hchain).1
      have hchain' : List.Chain' adjP (b :: t') := (List.chain'_cons.mp hchain).2
      have hl' : (b :: t').getLast? = some e := by
        rw [← hl]; simp [List.getLast?_cons_cons]
      have ihb := ih b e hchain' (by simp) hl'
      have htri : manh s e ≤ manh s b + manh b e := manh_triangle s b e
      have hsb : manh s b = 1 := adjP_manh hab
      simp only [List.length_cons] at ihb ⊢
      omega

/-- In an all-open rectangular grid there is a walkable path between any two
in-bounds cells whose length is exactly the Manhattan hop count plus one. -/
theorem exists_manh_path {maze : List (List ℕ)} {rows cols : ℕ}
    (hall : ∀ x y, x < rows → y < cols → openAt maze (x, y)) :
    ∀ (n : ℕ) (s e : ℕ × ℕ), manh s e = n →
      s.1 < rows → s.2 < cols → e.1 < rows → e.2 < cols →
      ∃ p, OpenPath maze s e p ∧ p.length = n + 1 := by
  intro n
  induction n using Nat.strong_induction_on with
  | _ n ih =>
    intro s e hman hs1 hs2 he1 he2
    by_cases hse : s = e
    · refine ⟨[s], ⟨by simp, by simp [hse], by simp, ?_⟩, ?_⟩
      · intro c hc
        simp only [List.mem_singleton] at hc
        rw [hc]
        exact hall s.1 s.2 hs1 hs2
      · have h0 : manh s e = 0 := by rw [hse]; simp [manh, Nat.dist_self]
        rw [← hman]
        simp [h0]
    · -- step one cell toward e along an axis where the coordinates differ
      have hpos : 0 < n := by
        rcases Nat.eq_zero_or_pos n with h0 | h; swap; · exact h
        exfalso; apply hse
        rw [h0] at hman
        have h1 : Nat.dist s.1 e.1 = 0 := by simp [manh] at hman; omega
        have h2 : Nat.dist s.2 e.2 = 0 := by simp [manh] at hman; omega
        have := Nat.eq_of_dist_eq_zero h1
        have := Nat.eq_of_dist_eq_zero h2
        exact Prod.ext (by assumption) (by assumption)
      obtain ⟨s', hadj, hs'1, hs'2, hman'⟩ :
          ∃ s', adjP s s' ∧ s'.1 < rows ∧ s'.2 < cols ∧ manh s' e = n - 1 := by
        by_cases hd1 : s.1 = e.1
        · -- move along columns
          have hd2 : s.2 ≠ e.2 := fun hc => hse (Prod.ext hd1 hc)
          rcases Nat.lt_or_ge s.2 e.2 with hlt | hge
          · refine ⟨(s.1, s.2 + 1), Or.inl ⟨rfl, Or.inr rfl⟩, hs1, by omega, ?_⟩
            simp only [manh, Nat.dist] at hman ⊢
            omega
          · have hgt : e.2 < s.2 := lt_of_le_of_ne hge (fun hc => hd2 hc.symm)
            refine ⟨(s.1, s.2 - 1), Or.inl ⟨rfl, Or.inl (by omega)⟩, hs1, by omega, ?_⟩
            simp only [manh, Nat.dist] at hman ⊢
            omega
        · rcases Nat.lt_or_ge s.1 e.1 with hlt | hge
          · refine ⟨(s.1 + 1, s.2), Or.inr ⟨rfl, Or.inr rfl⟩, by omega, hs2, ?_⟩
            simp only [manh, Nat.dist] at hman ⊢
            omega
          · have hgt : e.1 < s.1 := lt_of_le_of_ne hge (fun hc => hd1 hc.symm)
            refine ⟨(s.1 - 1, s.2), Or.inr ⟨rfl, Or.inl (by omega)⟩, by omega, hs2, ?_⟩
            simp only [manh, Nat.dist] at hman ⊢
            omega
      obtain ⟨p', hp', hlen'⟩ := ih (n - 1) (by omega) s' e hman' hs'1 hs'2 he1 he2
      obtain ⟨hh', hl', hc', ho'⟩ := hp'
      refine ⟨s :: p', ⟨by simp, ?_, ?_, ?_⟩, ?_⟩
      · cases p' with
        | nil => simp at hh'
        | cons x t => rw [List.getLast?_cons_cons]; exact hl'
      · refine List.chain'_cons'.mpr ⟨?_, hc'⟩
        intro h hh
        rw [hh'] at hh
        injection hh with hh
        subst hh
        exact hadj
      · intro c hc
        rcases List.mem_cons.mp hc with hceq | hcm
        · rw [hceq]; exact hall s.1 s.2 hs1 hs2
        · exact ho' c hcm
      · simp only [List.length_cons, hlen']
        omega

/-! ### The path engine: `dijkstra(self, maze, start, end)` (lines 124-155)

The heap entries are `(d, x, y)` triples.  Python pushes `(new_dist, (nx, ny))`
tuples and `heapq.heappop` returns the least tuple in lexicographic tuple
order, which is total on integer triples; we therefore model the heap as the
multiset of its entries and pop the lexicographically least one. -/

/-- Lexicographic comparison of heap entries, matching Python tuple order on
`(d, (x, y))`. -/
def lexLe (a b : ℕ × ℕ × ℕ) : Bool :=
  a.1 < b.1 || (a.1 == b.1 && (a.2.1 < b.2.1 || (a.2.1 == b.2.1 && a.2.2 ≤ b.2.2)))

theorem lexLe_total (a b : ℕ × ℕ × ℕ) : lexLe a b = true ∨ lexLe b a = true := by
  simp only [lexLe, Bool.or_eq_true, Bool.and_eq_true, beq_iff_eq, decide_eq_true_eq]
  omega

theorem lexLe_fst {a b : ℕ × ℕ × ℕ} (h : lexLe a b = true) : a.1 ≤ b.1 := by
  simp only [lexLe, Bool.or_eq_true, Bool.and_eq_true, beq_iff_eq, decide_eq_true_eq] at h
  omega

/-- `heapq.heappop`: remove and return the least entry of the heap.
Returns `none` on the empty heap (`while pq:` then exits). -/
def popMin : List (ℕ × ℕ × ℕ) → Option ((ℕ × ℕ × ℕ) × List (ℕ × ℕ × ℕ))
  | [] => none
  | e :: es =>
    match popMin es with
    | none => some (e, [])
    | some (m, rest) => if lexLe e m then some (e, es) else some (m, e :: rest)

theorem popMin_none_iff (l : List (ℕ × ℕ × ℕ)) : popMin l = none ↔ l = [] := by
  cases l with
  | nil => simp [popMin]
  | cons e es =>
    simp only [popMin]
    cases h : popMin es with
    | none => simp
    | some p =>
      obtain ⟨m, rest⟩ := p
      by_cases hle : lexLe e m <;> simp [hle]

theorem lexLe_refl (a : ℕ × ℕ × ℕ) : lexLe a a = true := by
  simp [lexLe]

theorem lexLe_trans {a b c : ℕ × ℕ × ℕ} (h1 : lexLe a b = true)
    (h2 : lexLe b c = true) : lexLe a c = true := by
  simp only [lexLe, Bool.or_eq_true, Bool.and_eq_true, beq_iff_eq,
    decide_eq_true_eq] at h1 h2 ⊢
  omega

theorem popMin_perm {l : List (ℕ × ℕ × ℕ)} {m : ℕ × ℕ × ℕ} {rest : List (ℕ × ℕ × ℕ)}
    (h : popMin l = some (m, rest)) : l.Perm (m :: rest) := by
  induction l generalizing m rest with
  | nil => simp [popMin] at h
  | cons e es ih =>
    simp only [popMin] at h
    cases hes : popMin es with
    | none =>
      rw [hes] at h
      have he : es = [] := (popMin_none_iff es).mp hes
      subst he
      simp only [Option.some_inj, Prod.mk.injEq] at h
      rw [← h.1, ← h.2]
    | some p =>
      obtain ⟨m', rest'⟩ := p
      rw [hes] at h
      by_cases hle : lexLe e m'
      · simp only [hle, if_true, Option.some_inj, Prod.mk.injEq] at h
        rw [← h.1, ← h.2]
      · simp only [hle, Bool.false_eq_true, if_false, Option.some_inj, Prod.mk.injEq] at h
        rw [← h.1, ← h.2]
        exact ((ih hes).cons e).trans (List.Perm.swap m' e rest')

theorem popMin_min {l : List (ℕ × ℕ × ℕ)} {m : ℕ × ℕ × ℕ} {rest : List (ℕ × ℕ × ℕ)}
    (h : popMin l = some (m, rest)) : ∀ e ∈ l, lexLe m e = true := by
  induction l generalizing m rest with
  | nil => simp [popMin] at h
  | cons e es ih =>
    simp only [popMin] at h
    cases hes : popMin es with
    | none =>
      rw [hes] at h
      have he : es = [] := (popMin_none_iff es).mp hes
      subst he
      simp only [Option.some_inj, Prod.mk.injEq] at h
      intro x hx
      simp only [List.mem_singleton] at hx
      rw [hx, ← h.1]
      exact lexLe_refl e
    | some p =>
      obtain ⟨m', rest'⟩ := p
      rw [hes] at h
      have hmin' : ∀ x ∈ es, lexLe m' x = true := fun x hx => ih hes x hx
      by_cases hle : lexLe e m'
      · simp only [hle, if_true, Option.some_inj, Prod.mk.injEq] at h
        intro x hx
        rcases List.mem_cons.mp hx with hx | hx
        · rw [hx, ← h.1]; exact lexLe_refl e
        · rw [← h.1]; exact lexLe_trans hle (hmin' x hx)
      · simp only [hle, Bool.false_eq_true, if_false, Option.some_inj, Prod.mk.injEq] at h
        have hm'e : lexLe m' e = true := by
          rcases lexLe_total e m' with ht | ht
          · exact absurd ht hle
          · exact ht
        intro x hx
        rcases List.mem_cons.mp hx with hx | hx
        · rw [hx, ← h.1]; exact hm'e
        · rw [← h.1]; exact hmin' x hx

/-- The mutable state of one `dijkstra` call: the caller's grid (threaded so
that non-mutation is a theorem), the `dist` and `prev` matrices, and the heap. -/
structure DState where
  maze : List (List ℕ)
  dist : List (List (Option ℕ))
  prev : List (List (Option (ℕ × ℕ)))
  pq : List (ℕ × ℕ × ℕ)
deriving DecidableEq

/-- `new_dist < dist[nx][ny]` with `float('inf')` as `none`. -/
def ltInf (k : ℕ) : Option ℕ → Bool
  | none => true
  | some m => k < m

/-- `directions = [(-1,0),(1,0),(0,-1),(0,1)]`. -/
def directions : List (ℤ × ℤ) := [(-1, 0), (1, 0), (0, -1), (0, 1)]

/-- One step of the neighbor loop body (lines 137-144): bounds check, wall
check, strict relaxation, `prev` update and heap push. -/
def relaxOne (rows cols : ℕ) (d x y : ℕ) (s : DState) (dir : ℤ × ℤ) : DState :=
  let nx : ℤ := (x : ℤ) + dir.1
  let ny : ℤ := (y : ℤ) + dir.2
  if 0 ≤ nx ∧ nx < (rows : ℤ) ∧ 0 ≤ ny ∧ ny < (cols : ℤ) ∧
      idx2 s.maze nx.toNat ny.toNat = some 0 then
    match idx2 s.dist nx.toNat ny.toNat with
    | none => s  -- unreachable for a rectangular grid: the bounds were checked
    | some dcur =>
      if ltInf (d + 1) dcur then
        { s with
          dist := set2 s.dist nx.toNat ny.toNat (some (d + 1)),
          prev := set2 s.prev nx.toNat ny.toNat (some (x, y)),
          pq := s.pq ++ [(d + 1, nx.toNat, ny.toNat)] }
      else s
  else s

/-- The full `for dx, dy in directions:` loop for one popped entry. -/
def relaxAll (rows cols : ℕ) (d x y : ℕ) (s : DState) : DState :=
  directions.foldl (relaxOne rows cols d x y) s

/-- The `while pq:` loop (lines 133-144), with explicit fuel.  Each iteration
pops the least entry, stops if it is `end` (line 135-136), and otherwise
relaxes the four neighbors.  The fuel passed by `dijkstra` is proved
sufficient below, so the fuel-out branch is never taken. -/
def dloop (rows cols : ℕ) (en : ℕ × ℕ) : ℕ → DState → DState
  | 0, s => s
  | fuel + 1, s =>
    match popMin s.pq with
    | none => s
    | some ((d, x, y), rest) =>
      if (x, y) = en then { s with pq := rest }
      else dloop rows cols en fuel (relaxAll rows cols d x y { s with pq := rest })

/-- Path reconstruction (lines 146-154).  Python walks `prev` links backward
from `end`, appending and finally reversing; we build the reversed list
directly by recursion toward `start`.  The fuel `d + 1` (one more than
`end`'s distance) is proved sufficient below; `none` models the crash Python
would suffer on a missing `prev` link, which is proved unreachable. -/
def reconstructPath (prev : List (List (Option (ℕ × ℕ)))) (st : ℕ × ℕ) :
    ℕ → ℕ × ℕ → Option (List (ℕ × ℕ))
  | 0, _ => none
  | fuel + 1, cur =>
    if cur = st then some [st]
    else
      match idx2 prev cur.1 cur.2 with
      | some (some c') => (reconstructPath prev st fuel c').map (fun p => p ++ [cur])
      | _ => none

/-- The initial state of a `dijkstra` call (lines 125-129): all distances
infinite except `dist[start] = 0`, all `prev` links `None`, heap `[(0, start)]`. -/
def initState (maze : List (List ℕ)) (st : ℕ × ℕ) : DState :=
  let rows := maze.length
  let cols := (maze.headD []).length
  { maze := maze
    dist := set2 (mkGrid rows cols (none : Option ℕ)) st.1 st.2 (some 0)
    prev := mkGrid rows cols (none : Option (ℕ × ℕ))
    pq := [(0, st.1, st.2)] }

/-- The state when the `while` loop has finished. -/
def dijkstraRun (maze : List (List ℕ)) (st en : ℕ × ℕ) : DState :=
  let rows := maze.length
  let cols := (maze.headD []).length
  dloop rows cols en (2 * rows * cols + 1) (initState maze st)

/-- `dijkstra(maze, start, end)`: `None` when `dist[end]` is still infinite
(line 148-149), otherwise the reconstructed `start -> ... -> end` path. -/
def dijkstra (maze : List (List ℕ)) (st en : ℕ × ℕ) : Option (List (ℕ × ℕ)) :=
  let s := dijkstraRun maze st en
  match idx2 s.dist en.1 en.2 with
  | some (some d) => reconstructPath s.prev st (d + 1) en
  | _ => none

/-- `dijkstra` together with the final state of the caller-visible grid it
threaded through the search — the observable footprint of one call. -/
def dijkstraFull (maze : List (List ℕ)) (st en : ℕ × ℕ) :
    Option (List (ℕ × ℕ)) × List (List ℕ) :=
  (dijkstra maze st en, (dijkstraRun maze st en).maze)

/-! ### Termination measure: infinite cells and heap size -/

/-- Number of infinite entries in one row of the `dist` matrix. -/
def rowInf (row : List (Option ℕ)) : ℕ :=
  row.countP (fun o => o.isNone)

/-- Number of still-infinite entries of the `dist` matrix. -/
def cntInf (dist : List (List (Option ℕ))) : ℕ :=
  (dist.map rowInf).sum

theorem countP_set_isNone {row : List (Option ℕ)} {j : ℕ}
    (h : row[j]? = some none) (v : ℕ) :
    rowInf (row.set j (some v)) + 1 = rowInf row := by
  induction row generalizing j with
  | nil => simp at h
  | cons a t ih =>
    cases j with
    | zero =>
      simp only [List.getElem?_cons_zero, Option.some_inj] at h
      subst h
      simp [rowInf, List.countP_cons]
    | succ j' =>
      simp only [List.getElem?_cons_succ] at h
      have := ih h
      simp only [rowInf, List.set_cons_succ, List.countP_cons] at *
      omega

theorem sum_map_set {α : Type} (f : α → ℕ) :
    ∀ (l : List α) (i : ℕ) {b : α} (a : α), l[i]? = some b →
      ((l.set i a).map f).sum + f b = (l.map f).sum + f a := by
  intro l
  induction l with
  | nil => intro i b a h; simp at h
  | cons r t ih =>
    intro i b a h
    cases i with
    | zero =>
      simp only [List.getElem?_cons_zero, Option.some_inj] at h
      subst h
      simp only [List.set_cons_zero, List.map_cons, List.sum_cons]
      omega
    | succ i' =>
      simp only [List.getElem?_cons_succ] at h
      have := ih i' a h
      simp only [List.set_cons_succ, List.map_cons, List.sum_cons]
      omega

theorem countP_set_le (row : List (Option ℕ)) (j : ℕ) (v : ℕ) :
    rowInf (row.set j (some v)) ≤ rowInf row := by
  induction row generalizing j with
  | nil => simp [rowInf]
  | cons a t ih =>
    cases j with
    | zero =>
      simp only [rowInf, List.set_cons_zero, List.countP_cons] at *
      have hv : (Option.some v).isNone = false := rfl
      simp only [hv, Bool.false_eq_true, if_false]
      omega
    | succ j' =>
      simp only [rowInf, List.set_cons_succ, List.countP_cons] at *
      have := ih j'
      omega

theorem cntInf_fill {dist : List (List (Option ℕ))} {i j : ℕ}
    (h : idx2 dist i j = some none) (v : ℕ) :
    cntInf (set2 dist i j (some v)) + 1 = cntInf dist := by
  unfold idx2 at h
  cases hri : dist[i]? with
  | none => rw [hri] at h; simp at h
  | some row =>
    rw [hri] at h
    simp only [Option.some_bind] at h
    unfold set2
    rw [hri]
    have hsum := sum_map_set rowInf dist i (row.set j (some v)) hri
    have hcnt := countP_set_isNone h v
    simp only [cntInf]
    omega

theorem cntInf_set2_le (dist : List (List (Option ℕ))) (i j : ℕ) (v : ℕ) :
    cntInf (set2 dist i j (some v)) ≤ cntInf dist := by
  unfold set2
  cases hri : dist[i]? with
  | none => exact le_refl _
  | some row =>
    have hsum := sum_map_set rowInf dist i (row.set j (some v)) hri
    have hcnt := countP_set_le row j v
    simp only [cntInf]
    omega

/-! ### Case analysis of one relaxation step -/

theorem dir_adj {x y rows cols : ℕ} {dir : ℤ × ℤ} (hdir : dir ∈ directions)
    (h1 : 0 ≤ (x : ℤ) + dir.1) (h2 : (x : ℤ) + dir.1 < (rows : ℤ))
    (h3 : 0 ≤ (y : ℤ) + dir.2) (h4 : (y : ℤ) + dir.2 < (cols : ℤ)) :
    ((x : ℤ) + dir.1).toNat < rows ∧ ((y : ℤ) + dir.2).toNat < cols ∧
    adjP (x, y) (((x : ℤ) + dir.1).toNat, ((y : ℤ) + dir.2).toNat) := by
  fin_cases hdir
  · exact ⟨by omega, by omega, Or.inr ⟨by omega, Or.inl (by omega)⟩⟩
  · exact ⟨by omega, by omega, Or.inr ⟨by omega, Or.inr (by omega)⟩⟩
  · exact ⟨by omega, by omega, Or.inl ⟨by omega, Or.inl (by omega)⟩⟩
  · exact ⟨by omega, by omega, Or.inl ⟨by omega, Or.inr (by omega)⟩⟩

theorem adj_dir {x y : ℕ} {c' : ℕ × ℕ} (h : adjP (x, y) c') :
    ∃ dir ∈ directions, 0 ≤ (x : ℤ) + dir.1 ∧ 0 ≤ (y : ℤ) + dir.2 ∧
      ((x : ℤ) + dir.1).toNat = c'.1 ∧ ((y : ℤ) + dir.2).toNat = c'.2 := by
  rcases h with ⟨h1, h2 | h2⟩ | ⟨h1, h2 | h2⟩
  · exact ⟨(0, -1), by simp [directions], by omega, by omega, by omega, by omega⟩
  · exact ⟨(0, 1), by simp [directions], by omega, by omega, by omega, by omega⟩
  · exact ⟨(-1, 0), by simp [directions], by omega, by omega, by omega, by omega⟩
  · exact ⟨(1, 0), by simp [directions], by omega, by omega, by omega, by omega⟩

theorem relaxOne_cases {rows cols : ℕ} (d x y : ℕ) (s : DState) {dir : ℤ × ℤ}
    (hdir : dir ∈ directions) :
    relaxOne rows cols d x y s dir = s ∨
    ∃ nx ny old, nx < rows ∧ ny < cols ∧
      adjP (x, y) (nx, ny) ∧ openAt s.maze (nx, ny) ∧
      idx2 s.dist nx ny = some old ∧ ltInf (d + 1) old = true ∧
      relaxOne rows cols d x y s dir =
        { s with dist := set2 s.dist nx ny (some (d + 1)),
                 prev := set2 s.prev nx ny (some (x, y)),
                 pq := s.pq ++ [(d + 1, nx, ny)] } := by
  unfold relaxOne
  by_cases hg : 0 ≤ (x : ℤ) + dir.1 ∧ (x : ℤ) + dir.1 < (rows : ℤ) ∧
      0 ≤ (y : ℤ) + dir.2 ∧ (y : ℤ) + dir.2 < (cols : ℤ) ∧
      idx2 s.maze ((x : ℤ) + dir.1).toNat ((y : ℤ) + dir.2).toNat = some 0
  · rw [if_pos hg]
    obtain ⟨h1, h2, h3, h4, hopen⟩ := hg
    obtain ⟨hb1, hb2, hadj⟩ := dir_adj hdir h1 h2 h3 h4
    cases hdd : idx2 s.dist ((x : ℤ) + dir.1).toNat ((y : ℤ) + dir.2).toNat with
    | none => exact Or.inl rfl
    | some dcur =>
      dsimp only
      by_cases hlt : ltInf (d + 1) dcur = true
      · rw [if_pos hlt]
        exact Or.inr ⟨_, _, dcur, hb1, hb2, hadj, hopen, hdd, hlt, rfl⟩
      · rw [if_neg hlt]
        exact Or.inl rfl
  · rw [if_neg hg]
    exact Or.inl rfl

/-! ### Cumulative effect of the relaxation steps of one loop iteration -/

/-- All finite tentative distances are at most `d + 1`.  This holds whenever
the least heap priority is `d` (it is the key consequence of the `vb`
invariant below) and makes the `new_dist < dist[nx][ny]` test succeed only on
still-infinite cells. -/
def DBound (d : ℕ) (dist : List (List (Option ℕ))) : Prop :=
  ∀ a b v, idx2 dist a b = some (some v) → v ≤ d + 1

/-- What a sequence of relaxation steps for the popped entry `(d, (x, y))`
does to the state: a set of previously infinite, open, adjacent cells is
assigned distance `d + 1` and predecessor `(x, y)` and pushed on the heap,
and nothing else changes. -/
structure Evolve (rows cols d x y : ℕ) (s t : DState) : Prop where
  maze_eq : t.maze = s.maze
  pq_ext : ∃ news, t.pq = s.pq ++ news ∧
    ∀ e ∈ news, ∃ a b, e = (d + 1, a, b) ∧ a < rows ∧ b < cols ∧
      adjP (x, y) (a, b) ∧ openAt s.maze (a, b) ∧
      idx2 t.dist a b = some (some (d + 1)) ∧ idx2 s.dist a b = some none
  dist_pt : ∀ a b, idx2 t.dist a b = idx2 s.dist a b ∨
    (idx2 s.dist a b = some none ∧ idx2 t.dist a b = some (some (d + 1)) ∧
     idx2 t.prev a b = some (some (x, y)) ∧ a < rows ∧ b < cols ∧
     adjP (x, y) (a, b) ∧ openAt s.maze (a, b))
  prev_pt : ∀ a b, idx2 t.prev a b = idx2 s.prev a b ∨
    (idx2 s.dist a b = some none ∧ idx2 t.dist a b = some (some (d + 1)))
  cnt_bal : cntInf t.dist + t.pq.length = cntInf s.dist + s.pq.length
  cnt_le : cntInf t.dist ≤ cntInf s.dist
  dist_rect : ∀ r c, Rect s.dist r c → Rect t.dist r c
  prev_rect : ∀ r c, Rect s.prev r c → Rect t.prev r c
  assigned_pushed : ∀ a b, idx2 s.dist a b = some none →
    idx2 t.dist a b = some (some (d + 1)) → (d + 1, a, b) ∈ t.pq

theorem evolve_refl (rows cols d x y : ℕ) (s : DState) : Evolve rows cols d x y s s where
  maze_eq := rfl
  pq_ext := ⟨[], by simp, by simp⟩
  dist_pt := fun a b => Or.inl rfl
  prev_pt := fun a b => Or.inl rfl
  cnt_bal := rfl
  cnt_le := le_refl _
  dist_rect := fun r c h => h
  prev_rect := fun r c h => h
  assigned_pushed := by
    intro a b h1 h2
    rw [h1] at h2
    simp at h2

theorem evolve_dist_stable {rows cols d x y : ℕ} {s t : DState}
    (h : Evolve rows cols d x y s t) {a b : ℕ} {v : ℕ}
    (hv : idx2 s.dist a b = some (some v)) : idx2 t.dist a b = some (some v) := by
  rcases h.dist_pt a b with heq | ⟨hnone, _⟩
  · rw [heq, hv]
  · rw [hv] at hnone; simp at hnone

theorem evolve_prev_stable {rows cols d x y : ℕ} {s t : DState}
    (h : Evolve rows cols d x y s t) {a b : ℕ} {v : ℕ}
    (hv : idx2 s.dist a b = some (some v)) : idx2 t.prev a b = idx2 s.prev a b := by
  rcases h.prev_pt a b with heq | ⟨hnone, _⟩
  · exact heq
  · rw [hv] at hnone; simp at hnone

theorem evolve_trans {rows cols d x y : ℕ} {s t u : DState}
    (h1 : Evolve rows cols d x y s t) (h2 : Evolve rows cols d x y t u) :
    Evolve rows cols d x y s u where
  maze_eq := h2.maze_eq.trans h1.maze_eq
  pq_ext := by
    obtain ⟨n1, hpq1, hn1⟩ := h1.pq_ext
    obtain ⟨n2, hpq2, hn2⟩ := h2.pq_ext
    refine ⟨n1 ++ n2, by rw [hpq2, hpq1, List.append_assoc], ?_⟩
    intro e he
    rcases List.mem_append.mp he with he | he
    · obtain ⟨a, b, heq, hb1, hb2, hadj, hopen, hdt, hds⟩ := hn1 e he
      exact ⟨a, b, heq, hb1, hb2, hadj, hopen, evolve_dist_stable h2 hdt, hds⟩
    · obtain ⟨a, b, heq, hb1, hb2, hadj, hopen, hdu, hdt⟩ := hn2 e he
      refine ⟨a, b, heq, hb1, hb2, hadj, h1.maze_eq ▸ hopen, hdu, ?_⟩
      rcases h1.dist_pt a b with heq' | ⟨_, hsome, _⟩
      · rw [← heq', hdt]
      · rw [hdt] at hsome; simp at hsome
  dist_pt := by
    intro a b
    rcases h2.dist_pt a b with heq2 | ⟨htn, hus, hup, hb1, hb2, hadj, hopen⟩
    · rcases h1.dist_pt a b with heq1 | ⟨hsn, hts, htp, hb1, hb2, hadj, hopen⟩
      · exact Or.inl (heq2.trans heq1)
      · refine Or.inr ⟨hsn, heq2 ▸ hts, ?_, hb1, hb2, hadj, hopen⟩
        rcases h2.prev_pt a b with hp2 | ⟨htn, _⟩
        · rw [hp2, htp]
        · rw [hts] at htn; simp at htn
    · -- assigned in the second phase: the cell was still infinite in t, so in s too
      have hsn : idx2 s.dist a b = some none := by
        rcases h1.dist_pt a b with heq1 | ⟨_, hts, _⟩
        · rw [← heq1, htn]
        · rw [hts] at htn; simp at htn
      exact Or.inr ⟨hsn, hus, hup, hb1, hb2, hadj, h1.maze_eq ▸ hopen⟩
  prev_pt := by
    intro a b
    rcases h2.prev_pt a b with heq2 | ⟨htn, hus⟩
    · rcases h1.prev_pt a b with heq1 | ⟨hsn, hts⟩
      · exact Or.inl (heq2.trans heq1)
      · exact Or.inr ⟨hsn, evolve_dist_stable h2 hts⟩
    · have hsn : idx2 s.dist a b = some none := by
        rcases h1.dist_pt a b with heq1 | ⟨_, hts, _⟩
        · rw [← heq1, htn]
        · rw [hts] at htn; simp at htn
      exact Or.inr ⟨hsn, hus⟩
  cnt_bal := h2.cnt_bal.trans h1.cnt_bal
  cnt_le := h2.cnt_le.trans h1.cnt_le
  dist_rect := fun r c h => h2.dist_rect r c (h1.dist_rect r c h)
  prev_rect := fun r c h => h2.prev_rect r c (h1.prev_rect r c h)
  assigned_pushed := by
    intro a b hs hu
    cases htd : idx2 t.dist a b with
    | none =>
      rcases h1.dist_pt a b with heq | ⟨_, hts, _⟩
      · rw [heq, hs] at htd; simp at htd
      · rw [hts] at htd; simp at htd
    | some o =>
      cases o with
      | none => exact h2.assigned_pushed a b htd hu
      | some w =>
        have hw : w = d + 1 := by
          rcases h1.dist_pt a b with heq | ⟨_, hts, _⟩
          · rw [heq, hs] at htd; simp at htd
          · rw [hts] at htd
            injection htd with htd
            injection htd with htd
            omega
        subst hw
        have hmem : (d + 1, a, b) ∈ t.pq := h1.assigned_pushed a b hs htd
        obtain ⟨news, hpq, _⟩ := h2.pq_ext
        rw [hpq]
        exact List.mem_append.mpr (Or.inl hmem)

theorem dbound_evolve {rows cols d x y : ℕ} {s t : DState}
    (hDB : DBound d s.dist) (h : Evolve rows cols d x y s t) : DBound d t.dist := by
  intro a b v hv
  rcases h.dist_pt a b with heq | ⟨_, hsome, _⟩
  · exact hDB a b v (heq ▸ hv)
  · rw [hv] at hsome
    injection hsome with hsome
    injection hsome with hsome
    omega

theorem evolve_relaxOne {rows cols d x y : ℕ} {t : DState} {dir : ℤ × ℤ}
    (hdir : dir ∈ directions) (hDB : DBound d t.dist)
    (hprect : Rect t.prev rows cols) :
    Evolve rows cols d x y t (relaxOne rows cols d x y t dir) := by
  rcases relaxOne_cases d x y t hdir with heq | ⟨nx, ny, old, hb1, hb2, hadj, hopen, hdd, hlt, heq⟩
  · rw [heq]; exact evolve_refl rows cols d x y t
  · -- the relaxed cell must have been infinite: a finite value is ≤ d + 1
    have hnone : old = none := by
      cases old with
      | none => rfl
      | some o =>
        have := hDB nx ny o hdd
        simp only [ltInf, decide_eq_true_eq] at hlt
        omega
    subst hnone
    obtain ⟨po, hpo⟩ := idx2_isSome hprect hb1 hb2
    rw [heq]
    refine
      { maze_eq := rfl
        pq_ext := ?_
        dist_pt := ?_
        prev_pt := ?_
        cnt_bal := ?_
        cnt_le := ?_
        dist_rect := ?_
        prev_rect := ?_
        assigned_pushed := ?_ }
    · refine ⟨[(d + 1, nx, ny)], rfl, ?_⟩
      intro e he
      simp only [List.mem_singleton] at he
      subst he
      exact ⟨nx, ny, rfl, hb1, hb2, hadj, hopen, idx2_set2_self hdd _, hdd⟩
    · intro a b
      by_cases hab : (a, b) = (nx, ny)
      · obtain ⟨ha, hb⟩ := Prod.mk.injEq .. ▸ hab
        subst ha; subst hb
        exact Or.inr ⟨hdd, idx2_set2_self hdd _, idx2_set2_self hpo _,
          hb1, hb2, hadj, hopen⟩
      · exact Or.inl (by rw [idx2_set2_ne _ _ _ _ hab])
    · intro a b
      by_cases hab : (a, b) = (nx, ny)
      · obtain ⟨ha, hb⟩ := Prod.mk.injEq .. ▸ hab
        subst ha; subst hb
        exact Or.inr ⟨hdd, idx2_set2_self hdd _⟩
      · exact Or.inl (by rw [idx2_set2_ne _ _ _ _ hab])
    · have := cntInf_fill hdd (d + 1)
      simp only [List.length_append, List.length_singleton]
      omega
    · exact cntInf_set2_le t.dist nx ny (d + 1)
    · exact fun r c h => rect_set2 h nx ny _
    · exact fun r c h => rect_set2 h nx ny _
    · intro a b ha hb
      by_cases hab : (a, b) = (nx, ny)
      · obtain ⟨h1, h2⟩ := Prod.mk.injEq .. ▸ hab
        subst h1; subst h2
        simp
      · rw [idx2_set2_ne _ _ _ _ hab] at hb
        rw [ha] at hb
        simp at hb

/-- A neighbor cell is settled: its tentative distance is finite and at most
`d + 1`. -/
def Settled (d : ℕ) (dist : List (List (Option ℕ))) (c' : ℕ × ℕ) : Prop :=
  ∃ v', idx2 dist c'.1 c'.2 = some (some v') ∧ v' ≤ d + 1

theorem evolve_settled {rows cols d x y : ℕ} {s t : DState}
    (h : Evolve rows cols d x y s t) {c' : ℕ × ℕ}
    (hs : Settled d s.dist c') : Settled d t.dist c' := by
  obtain ⟨v', hv, hle⟩ := hs
  exact ⟨v', evolve_dist_stable h hv, hle⟩

/-- After `relaxOne` processes the direction whose target is the open
in-bounds cell `c'`, that cell is settled. -/
theorem relaxOne_settles {rows cols d x y : ℕ} {t : DState} {dir : ℤ × ℤ}
    (h1 : 0 ≤ (x : ℤ) + dir.1) (h3 : 0 ≤ (y : ℤ) + dir.2)
    {c' : ℕ × ℕ} (hc1 : ((x : ℤ) + dir.1).toNat = c'.1)
    (hc2 : ((y : ℤ) + dir.2).toNat = c'.2)
    (hb1 : c'.1 < rows) (hb2 : c'.2 < cols)
    (hopen : openAt t.maze c') (hrect : Rect t.dist rows cols) :
    Settled d (relaxOne rows cols d x y t dir).dist c' := by
  unfold relaxOne
  have hg : 0 ≤ (x : ℤ) + dir.1 ∧ (x : ℤ) + dir.1 < (rows : ℤ) ∧
      0 ≤ (y : ℤ) + dir.2 ∧ (y : ℤ) + dir.2 < (cols : ℤ) ∧
      idx2 t.maze ((x : ℤ) + dir.1).toNat ((y : ℤ) + dir.2).toNat = some 0 := by
    refine ⟨h1, by omega, h3, by omega, ?_⟩
    rw [hc1, hc2]
    exact hopen
  rw [if_pos hg]
  obtain ⟨dcur, hdd⟩ := idx2_isSome hrect (hc1 ▸ hb1) (hc2 ▸ hb2)
  rw [hdd]
  cases dcur with
  | none =>
    dsimp only [ltInf]
    rw [if_pos rfl]
    refine ⟨d + 1, ?_, le_refl _⟩
    show idx2 (set2 t.dist ((x : ℤ) + dir.1).toNat ((y : ℤ) + dir.2).toNat
      (some (d + 1))) c'.1 c'.2 = some (some (d + 1))
    rw [← hc1, ← hc2]
    exact idx2_set2_self hdd (some (d + 1))
  | some o =>
    dsimp only
    by_cases hlt : ltInf (d + 1) (some o) = true
    · rw [if_pos hlt]
      refine ⟨d + 1, ?_, le_refl _⟩
      show idx2 (set2 t.dist ((x : ℤ) + dir.1).toNat ((y : ℤ) + dir.2).toNat
        (some (d + 1))) c'.1 c'.2 = some (some (d + 1))
      rw [← hc1, ← hc2]
      exact idx2_set2_self hdd (some (d + 1))
    · rw [if_neg hlt]
      simp only [ltInf, decide_eq_true_eq] at hlt
      refine ⟨o, ?_, by omega⟩
      rw [← hc1, ← hc2]
      exact hdd

/-- The four relaxation steps of one loop iteration: the state evolves as
described by `Evolve`, finite distances stay bounded by `d + 1`, and every
open in-bounds neighbor of the popped cell ends up settled. -/
theorem relaxAll_spec {rows cols d x y : ℕ} {s : DState}
    (hDB : DBound d s.dist) (hdrect : Rect s.dist rows cols)
    (hprect : Rect s.prev rows cols) :
    Evolve rows cols d x y s (relaxAll rows cols d x y s) ∧
    DBound d (relaxAll rows cols d x y s).dist ∧
    ∀ c', adjP (x, y) c' → openAt s.maze c' → c'.1 < rows → c'.2 < cols →
      Settled d (relaxAll rows cols d x y s).dist c' := by
  have hd1 : ((-1 : ℤ), (0 : ℤ)) ∈ directions := by simp [directions]
  have hd2 : ((1 : ℤ), (0 : ℤ)) ∈ directions := by simp [directions]
  have hd3 : ((0 : ℤ), (-1 : ℤ)) ∈ directions := by simp [directions]
  have hd4 : ((0 : ℤ), (1 : ℤ)) ∈ directions := by simp [directions]
  set s1 := relaxOne rows cols d x y s (-1, 0) with hs1
  set s2 := relaxOne rows cols d x y s1 (1, 0) with hs2
  set s3 := relaxOne rows cols d x y s2 (0, -1) with hs3
  set s4 := relaxOne rows cols d x y s3 (0, 1) with hs4
  have hall : relaxAll rows cols d x y s = s4 := by
    simp only [relaxAll, directions, List.foldl_cons, List.foldl_nil, hs1, hs2, hs3, hs4]
  have he1 : Evolve rows cols d x y s s1 := evolve_relaxOne hd1 hDB hprect
  have hDB1 : DBound d s1.dist := dbound_evolve hDB he1
  have hpr1 : Rect s1.prev rows cols := he1.prev_rect rows cols hprect
  have hdr1 : Rect s1.dist rows cols := he1.dist_rect rows cols hdrect
  have he2 : Evolve rows cols d x y s1 s2 := evolve_relaxOne hd2 hDB1 hpr1
  have hDB2 : DBound d s2.dist := dbound_evolve hDB1 he2
  have hpr2 : Rect s2.prev rows cols := he2.prev_rect rows cols hpr1
  have hdr2 : Rect s2.dist rows cols := he2.dist_rect rows cols hdr1
  have he3 : Evolve rows cols d x y s2 s3 := evolve_relaxOne hd3 hDB2 hpr2
  have hDB3 : DBound d s3.dist := dbound_evolve hDB2 he3
  have hpr3 : Rect s3.prev rows cols := he3.prev_rect rows cols hpr2
  have hdr3 : Rect s3.dist rows cols := he3.dist_rect rows cols hdr2
  have he4 : Evolve rows cols d x y s3 s4 := evolve_relaxOne hd4 hDB3 hpr3
  have hDB4 : DBound d s4.dist := dbound_evolve hDB3 he4
  have he12 : Evolve rows cols d x y s s2 := evolve_trans he1 he2
  have he13 : Evolve rows cols d x y s s3 := evolve_trans he12 he3
  have he14 : Evolve rows cols d x y s s4 := evolve_trans he13 he4
  have he24 : Evolve rows cols d x y s2 s4 := evolve_trans he3 he4
  have he34 : Evolve rows cols d x y s3 s4 := he4
  refine ⟨hall ▸ he14, hall ▸ hDB4, ?_⟩
  intro c' hadj hopen hb1 hb2
  rw [hall]
  obtain ⟨dirw, hdirw, hw1, hw3, hwc1, hwc2⟩ := adj_dir hadj
  have hmem : dirw = ((-1 : ℤ), (0 : ℤ)) ∨ dirw = ((1 : ℤ), (0 : ℤ)) ∨
      dirw = ((0 : ℤ), (-1 : ℤ)) ∨ dirw = ((0 : ℤ), (1 : ℤ)) := by
    simpa [directions] using hdirw
  rcases hmem with hd | hd | hd | hd
  · subst hd
    exact evolve_settled (evolve_trans he2 he24)
      (relaxOne_settles hw1 hw3 hwc1 hwc2 hb1 hb2 hopen hdrect)
  · subst hd
    have hopen1 : openAt s1.maze c' := he1.maze_eq ▸ hopen
    exact evolve_settled he24 (relaxOne_settles hw1 hw3 hwc1 hwc2 hb1 hb2 hopen1 hdr1)
  · subst hd
    have hopen2 : openAt s2.maze c' := he12.maze_eq ▸ hopen
    exact evolve_settled he34 (relaxOne_settles hw1 hw3 hwc1 hwc2 hb1 hb2 hopen2 hdr2)
  · subst hd
    have hopen3 : openAt s3.maze c' := he13.maze_eq ▸ hopen
    exact relaxOne_settles hw1 hw3 hwc1 hwc2 hb1 hb2 hopen3 hdr3

/-! ### The search invariant -/

/-- Some walk of the engine (cells after the first open, consecutive cells
4-adjacent) leads from `st` to `c` in exactly `v` hops. -/
def WalkLen (maze : List (List ℕ)) (st c : ℕ × ℕ) (v : ℕ) : Prop :=
  ∃ p, ReachPath maze st c p ∧ p.length = v + 1

theorem walkLen_zero (maze : List (List ℕ)) (st : ℕ × ℕ) : WalkLen maze st st 0 :=
  ⟨[st], ⟨by simp, by simp, by simp, by simp⟩, by simp⟩

theorem walkLen_extend {maze : List (List ℕ)} {st c : ℕ × ℕ} {v : ℕ}
    (h : WalkLen maze st c v) {c' : ℕ × ℕ} (hadj : adjP c c')
    (hopen : openAt maze c') : WalkLen maze st c' (v + 1) := by
  obtain ⟨p, ⟨hh, hl, hc, ho⟩, hlen⟩ := h
  cases p with
  | nil => simp at hh
  | cons a t =>
    refine ⟨a :: (t ++ [c']), ⟨?_, ?_, ?_, ?_⟩, ?_⟩
    · simpa using hh
    · rw [show a :: (t ++ [c']) = (a :: t) ++ [c'] by simp, List.getLast?_concat]
    · rw [show a :: (t ++ [c']) = (a :: t) ++ [c'] by simp]
      rw [List.chain'_append]
      refine ⟨hc, by simp, ?_⟩
      intro p hp q hq
      simp only [List.head?_cons, Option.mem_def, Option.some_inj] at hq
      rw [hl] at hp
      simp only [Option.mem_def, Option.some_inj] at hp
      rw [← hp, ← hq]
      exact hadj
    · intro q hq
      simp only [List.tail_cons] at hq ⊢
      rcases List.mem_append.mp hq with hq | hq
      · exact ho q hq
      · simp only [List.mem_singleton] at hq
        rw [hq]
        exact hopen
    · simp only [List.length_cons, List.length_append, List.length_nil]
      simp only [List.length_cons] at hlen
      omega

/-- The invariant carried through the `while` loop.  `maze`, `rows`, `cols`
and `st` are the fixed parameters of the call; `s` is the loop state. -/
structure Inv (maze : List (List ℕ)) (rows cols : ℕ) (st : ℕ × ℕ) (s : DState) : Prop where
  maze_eq : s.maze = maze
  dist_rect : Rect s.dist rows cols
  prev_rect : Rect s.prev rows cols
  start_zero : idx2 s.dist st.1 st.2 = some (some 0)
  zero_start : ∀ x y, idx2 s.dist x y = some (some 0) → (x, y) = st
  sound_dist : ∀ x y v, idx2 s.dist x y = some (some v) → WalkLen maze st (x, y) v
  sound_pq : ∀ e ∈ s.pq, WalkLen maze st (e.2.1, e.2.2) e.1 ∧ e.2.1 < rows ∧ e.2.2 < cols
  pq_dist : ∀ e ∈ s.pq, ∃ v, idx2 s.dist e.2.1 e.2.2 = some (some v) ∧ v ≤ e.1
  relax_inv : ∀ x y v, idx2 s.dist x y = some (some v) →
    ((v, x, y) ∈ s.pq ∨
      ∀ c', adjP (x, y) c' → openAt maze c' → c'.1 < rows → c'.2 < cols →
        ∃ v', idx2 s.dist c'.1 c'.2 = some (some v') ∧ v' ≤ v + 1)
  vb : ∀ x y v, idx2 s.dist x y = some (some v) → ∀ e ∈ s.pq, v ≤ e.1 + 1
  prev_inv : ∀ x y c', idx2 s.prev x y = some (some c') →
    adjP c' (x, y) ∧ openAt maze (x, y) ∧
    ∃ v v', idx2 s.dist x y = some (some v) ∧
      idx2 s.dist c'.1 c'.2 = some (some v') ∧ v' < v
  prev_some : ∀ x y v, idx2 s.dist x y = some (some v) → (x, y) ≠ st →
    ∃ c', idx2 s.prev x y = some (some c')

theorem inv_init {maze : List (List ℕ)} {rows cols : ℕ} {st : ℕ × ℕ}
    (hs1 : st.1 < rows) (hs2 : st.2 < cols)
    (hrows : maze.length = rows) (hcols : (maze.headD []).length = cols) :
    Inv maze rows cols st (initState maze st) := by
  have hgrid : Rect (mkGrid rows cols (none : Option ℕ)) rows cols := rect_mkGrid rows cols none
  have hbase : idx2 (mkGrid rows cols (none : Option ℕ)) st.1 st.2 = some none :=
    idx2_mkGrid rows cols none hs1 hs2
  have hd0 : (initState maze st).dist =
      set2 (mkGrid rows cols (none : Option ℕ)) st.1 st.2 (some 0) := by
    dsimp only [initState]
    rw [hrows, hcols]
  have hp0 : (initState maze st).prev = mkGrid rows cols (none : Option (ℕ × ℕ)) := by
    dsimp only [initState]
    rw [hrows, hcols]
  have hq0 : (initState maze st).pq = [(0, st.1, st.2)] := rfl
  have hdist : ∀ x y o, idx2 (initState maze st).dist x y = some o →
      ((x, y) = st ∧ o = some 0) ∨ o = none := by
    intro x y o h
    rw [hd0] at h
    by_cases hxy : (x, y) = (st.1, st.2)
    · obtain ⟨hx, hy⟩ := Prod.mk.injEq .. ▸ hxy
      subst hx; subst hy
      rw [idx2_set2_self hbase (some 0)] at h
      injection h with h
      exact Or.inl ⟨rfl, h.symm⟩
    · rw [idx2_set2_ne _ _ _ _ hxy] at h
      have hb := idx2_bounds hgrid h
      rw [idx2_mkGrid rows cols none hb.1 hb.2] at h
      injection h with h
      exact Or.inr h.symm
  refine
    { maze_eq := rfl
      dist_rect := hd0 ▸ rect_set2 hgrid st.1 st.2 (some 0)
      prev_rect := hp0 ▸ rect_mkGrid rows cols none
      start_zero := by rw [hd0]; exact idx2_set2_self hbase (some 0)
      zero_start := ?_
      sound_dist := ?_
      sound_pq := ?_
      pq_dist := ?_
      relax_inv := ?_
      vb := ?_
      prev_inv := ?_
      prev_some := ?_ }
  · intro x y h
    rcases hdist x y _ h with ⟨hxy, _⟩ | hn
    · exact hxy
    · simp at hn
  · intro x y v h
    rcases hdist x y _ h with ⟨hxy, hv⟩ | hn
    · injection hv with hv
      rw [hxy, hv]
      exact walkLen_zero maze st
    · simp at hn
  · intro e he
    rw [hq0] at he
    simp only [List.mem_singleton] at he
    subst he
    exact ⟨walkLen_zero maze st, hs1, hs2⟩
  · intro e he
    rw [hq0] at he
    simp only [List.mem_singleton] at he
    subst he
    refine ⟨0, ?_, le_refl _⟩
    rw [hd0]
    exact idx2_set2_self hbase (some 0)
  · intro x y v h
    rcases hdist x y _ h with ⟨hxy, hv⟩ | hn
    · injection hv with hv
      obtain ⟨hx, hy⟩ := Prod.mk.injEq .. ▸ hxy
      left
      rw [hq0, ← hv, hx, hy]
      simp
    · simp at hn
  · intro x y v h e he
    rw [hq0] at he
    simp only [List.mem_singleton] at he
    subst he
    rcases hdist x y _ h with ⟨_, hv⟩ | hn
    · injection hv with hv; omega
    · simp at hn
  · intro x y c' h
    rw [hp0] at h
    have hb := idx2_bounds (rect_mkGrid rows cols (none : Option (ℕ × ℕ))) h
    rw [idx2_mkGrid rows cols none hb.1 hb.2] at h
    simp at h
  · intro x y v h hne
    rcases hdist x y _ h with ⟨hxy, _⟩ | hn
    · exact absurd hxy hne
    · simp at hn

/-! ### One loop iteration preserves the invariant and decreases the measure -/

/-- The termination measure of the loop: twice the number of infinite cells
plus the heap size.  A pop removes one heap entry; every push fills one
infinite cell, trading `2` of measure for `1`. -/
def mu (s : DState) : ℕ := 2 * cntInf s.dist + s.pq.length

theorem inv_step {maze : List (List ℕ)} {rows cols : ℕ} {st : ℕ × ℕ} {s : DState}
    (hInv : Inv maze rows cols st s)
    {d x y : ℕ} {rest : List (ℕ × ℕ × ℕ)}
    (hpop : popMin s.pq = some ((d, x, y), rest)) :
    Inv maze rows cols st (relaxAll rows cols d x y { s with pq := rest }) ∧
    mu (relaxAll rows cols d x y { s with pq := rest }) < mu s := by
  have hperm : s.pq.Perm ((d, x, y) :: rest) := popMin_perm hpop
  have hmem_pop : (d, x, y) ∈ s.pq := hperm.mem_iff.mpr (List.mem_cons_self _ _)
  have hrest_sub : ∀ e ∈ rest, e ∈ s.pq :=
    fun e he => hperm.mem_iff.mpr (List.mem_cons_of_mem _ he)
  have hd_min : ∀ e ∈ s.pq, d ≤ e.1 := fun e he => lexLe_fst (popMin_min hpop e he)
  obtain ⟨hwxy, hbx, hby⟩ := hInv.sound_pq _ hmem_pop
  have hDB : DBound d s.dist := fun a b v hv => hInv.vb a b v hv _ hmem_pop
  obtain ⟨hEv, hDB', hcov⟩ :=
    @relaxAll_spec rows cols d x y { s with pq := rest }
      hDB hInv.dist_rect hInv.prev_rect
  set s' := relaxAll rows cols d x y { s with pq := rest } with hs'
  obtain ⟨news, hpq', hnews⟩ := hEv.pq_ext
  have hsmaze : ({ s with pq := rest } : DState).maze = maze := hInv.maze_eq
  have vstable : ∀ a b v, idx2 s.dist a b = some (some v) →
      idx2 s'.dist a b = some (some v) := fun a b v hv => evolve_dist_stable hEv hv
  have hvle : ∀ a b v, idx2 s'.dist a b = some (some v) → v ≤ d + 1 := by
    intro a b v hv
    exact hDB' a b v hv
  constructor
  · refine
      { maze_eq := hEv.maze_eq.trans hsmaze
        dist_rect := hEv.dist_rect rows cols hInv.dist_rect
        prev_rect := hEv.prev_rect rows cols hInv.prev_rect
        start_zero := vstable st.1 st.2 0 hInv.start_zero
        zero_start := ?_
        sound_dist := ?_
        sound_pq := ?_
        pq_dist := ?_
        relax_inv := ?_
        vb := ?_
        prev_inv := ?_
        prev_some := ?_ }
    · -- zero_start
      intro a b h
      rcases hEv.dist_pt a b with heq | ⟨_, hsome, _⟩
      · exact hInv.zero_start a b (heq ▸ h)
      · rw [h] at hsome
        injection hsome with hsome
        injection hsome with hsome
        omega
    · -- sound_dist
      intro a b v h
      rcases hEv.dist_pt a b with heq | ⟨_, hsome, _, _, _, hadj, hopen⟩
      · exact hInv.sound_dist a b v (heq ▸ h)
      · rw [h] at hsome
        injection hsome with hsome
        injection hsome with hsome
        rw [hsome]
        exact walkLen_extend hwxy hadj (hsmaze ▸ hopen)
    · -- sound_pq
      intro e he
      rw [hpq'] at he
      rcases List.mem_append.mp he with he | he
      · exact hInv.sound_pq e (hrest_sub e he)
      · obtain ⟨a, b, heq, hb1, hb2, hadj, hopen, _, _⟩ := hnews e he
        subst heq
        exact ⟨walkLen_extend hwxy hadj (hsmaze ▸ hopen), hb1, hb2⟩
    · -- pq_dist
      intro e he
      rw [hpq'] at he
      rcases List.mem_append.mp he with he | he
      · obtain ⟨v, hv, hle⟩ := hInv.pq_dist e (hrest_sub e he)
        exact ⟨v, vstable _ _ v hv, hle⟩
      · obtain ⟨a, b, heq, _, _, _, _, hdt, _⟩ := hnews e he
        subst heq
        exact ⟨d + 1, hdt, le_refl _⟩
    · -- relax_inv
      intro a b v h
      rcases hEv.dist_pt a b with heq | ⟨hnone, hsome, _, _, _, _, _⟩
      · have hsv : idx2 s.dist a b = some (some v) := heq ▸ h
        rcases hInv.relax_inv a b v hsv with hL | hR
        · have : (v, a, b) ∈ (d, x, y) :: rest := hperm.mem_iff.mp hL
          rcases List.mem_cons.mp this with hpop' | hrest
          · -- the popped entry: its neighbors were all settled by the relaxations
            have hv : v = d := congrArg Prod.fst hpop'
            have ha : a = x := congrArg (fun e => e.2.1) hpop'
            have hb : b = y := congrArg (fun e => e.2.2) hpop'
            right
            intro c' hadj hopen hb1 hb2
            have hcov' := hcov c' (by rw [← ha, ← hb]; exact hadj)
              (by rw [hsmaze]; exact hopen) hb1 hb2
            obtain ⟨v', hv', hle⟩ := hcov'
            exact ⟨v', hv', by omega⟩
          · left
            rw [hpq']
            exact List.mem_append.mpr (Or.inl hrest)
        · right
          intro c' hadj hopen hb1 hb2
          obtain ⟨v', hv', hle⟩ := hR c' hadj hopen hb1 hb2
          exact ⟨v', vstable _ _ v' hv', hle⟩
      · rw [h] at hsome
        injection hsome with hsome
        injection hsome with hsome
        left
        rw [hsome] at h ⊢
        exact hEv.assigned_pushed a b hnone h
    · -- vb
      intro a b v h e he
      have hvd : v ≤ d + 1 := hvle a b v h
      rw [hpq'] at he
      rcases List.mem_append.mp he with he | he
      · have := hd_min e (hrest_sub e he)
        omega
      · obtain ⟨a', b', heq, _⟩ := hnews e he
        subst heq
        simp only
        omega
    · -- prev_inv
      intro a b c' h
      rcases hEv.prev_pt a b with heq | ⟨hnone, hsome⟩
      · have hsp : idx2 s.prev a b = some (some c') := heq ▸ h
        obtain ⟨hadj, hopen, v, v', hv, hv', hlt⟩ := hInv.prev_inv a b c' hsp
        exact ⟨hadj, hopen, v, v', vstable _ _ v hv, vstable _ _ v' hv', hlt⟩
      · rcases hEv.dist_pt a b with heq' | ⟨_, hsome', hprev', hb1, hb2, hadj, hopen⟩
        · rw [heq'] at hsome
          rw [hsome] at hnone
          simp at hnone
        · have hc' : c' = (x, y) :=
            Option.some_inj.mp (Option.some_inj.mp (h.symm.trans hprev'))
          subst hc'
          obtain ⟨vxy, hvxy, hvxy_le⟩ := hInv.pq_dist _ hmem_pop
          refine ⟨hadj, hsmaze ▸ hopen, d + 1, vxy, hsome', vstable _ _ vxy hvxy, by omega⟩
    · -- prev_some
      intro a b v h hne
      rcases hEv.dist_pt a b with heq | ⟨_, _, hprev', _⟩
      · have hsv : idx2 s.dist a b = some (some v) := heq ▸ h
        obtain ⟨c', hc'⟩ := hInv.prev_some a b v hsv hne
        refine ⟨c', ?_⟩
        rw [evolve_prev_stable hEv hsv]
        exact hc'
      · exact ⟨(x, y), hprev'⟩
  · -- measure decrease
    have hbal := hEv.cnt_bal
    have hle := hEv.cnt_le
    have hlen : s.pq.length = rest.length + 1 := by
      have := hperm.length_eq
      simpa using this
    simp only [mu]
    simp only [List.length_cons] at hbal hle hlen ⊢
    omega

/-! ### Completeness at the two loop exits -/

/-- If every finite cell has all its open neighbors settled within one hop
(the relaxation closure, available once the frontier is empty), then along
any engine walk the distances grow by at most one per hop. -/
theorem walk_dist_le {maze : List (List ℕ)} {rows cols : ℕ} {s : DState}
    (hmrect : Rect maze rows cols)
    (hclosed : ∀ a b v, idx2 s.dist a b = some (some v) →
      ∀ c', adjP (a, b) c' → openAt maze c' → c'.1 < rows → c'.2 < cols →
        ∃ v', idx2 s.dist c'.1 c'.2 = some (some v') ∧ v' ≤ v + 1) :
    ∀ (t : List (ℕ × ℕ)) (c en : ℕ × ℕ) (vc : ℕ),
      (c :: t).getLast? = some en → List.Chain' adjP (c :: t) →
      (∀ q ∈ t, openAt maze q) →
      idx2 s.dist c.1 c.2 = some (some vc) →
      ∃ v, idx2 s.dist en.1 en.2 = some (some v) ∧ v ≤ vc + t.length := by
  intro t
  induction t with
  | nil =>
    intro c en vc hl _ _ hdc
    have hce : c = en := by simpa using hl
    refine ⟨vc, ?_, by simp⟩
    rw [← hce]
    exact hdc
  | cons b t' ih =>
    intro c en vc hl hchain hopen hdc
    have hab : adjP c b := (List.chain'_cons.mp hchain).1
    have hbopen : openAt maze b := hopen b (by simp)
    have hbb := idx2_bounds hmrect hbopen
    obtain ⟨vb, hvb, hvble⟩ :=
      hclosed c.1 c.2 vc hdc b (by simpa using hab) hbopen hbb.1 hbb.2
    obtain ⟨v, hv, hvle⟩ := ih b en vb (by simpa using hl)
      (List.chain'_cons.mp hchain).2
      (fun q hq => hopen q (List.mem_cons_of_mem b hq)) hvb
    refine ⟨v, hv, ?_⟩
    simp only [List.length_cons] at hvle ⊢
    omega

/-- At the break exit (the popped entry is `end`), the distance of `end` is
bounded by the length of any engine walk to it.  The descent along a walk
either stays strictly below a frontier entry (then the heap minimality of the
popped entry bounds `end`'s distance directly) or reaches `end`. -/
theorem walk_dist_break {maze : List (List ℕ)} {rows cols : ℕ} {st : ℕ × ℕ}
    {s : DState} (hmrect : Rect maze rows cols) (hInv : Inv maze rows cols st s)
    {d ex ey : ℕ} {rest : List (ℕ × ℕ × ℕ)}
    (hpop : popMin s.pq = some ((d, ex, ey), rest)) :
    ∀ (t : List (ℕ × ℕ)) (c : ℕ × ℕ) (vc i : ℕ),
      (c :: t).getLast? = some (ex, ey) → List.Chain' adjP (c :: t) →
      (∀ q ∈ t, openAt maze q) →
      idx2 s.dist c.1 c.2 = some (some vc) → vc ≤ i →
      ∃ v, idx2 s.dist ex ey = some (some v) ∧ v ≤ i + t.length := by
  have hmem_pop : (d, ex, ey) ∈ s.pq :=
    (popMin_perm hpop).mem_iff.mpr (List.mem_cons_self _ _)
  have hmin := popMin_min hpop
  intro t
  induction t with
  | nil =>
    intro c vc i hl _ _ hdc hvi
    have hce : c = (ex, ey) := by simpa using hl
    refine ⟨vc, ?_, by omega⟩
    have : idx2 s.dist (ex, ey).1 (ex, ey).2 = some (some vc) := by
      rw [← hce]; exact hdc
    simpa using this
  | cons b t' ih =>
    intro c vc i hl hchain hopen hdc hvi
    rcases hInv.relax_inv c.1 c.2 vc hdc with hL | hR
    · -- a frontier entry carries this cell: heap minimality bounds `end`
      have hle : lexLe (d, ex, ey) (vc, c.1, c.2) = true := hmin _ hL
      have hdvc : d ≤ vc := lexLe_fst hle
      obtain ⟨w, hw, hwle⟩ := hInv.pq_dist _ hmem_pop
      refine ⟨w, ?_, ?_⟩
      · simpa using hw
      · simp only at hwle
        omega
    · have hab : adjP c b := (List.chain'_cons.mp hchain).1
      have hbopen : openAt maze b := hopen b (by simp)
      have hbb := idx2_bounds hmrect hbopen
      obtain ⟨vb, hvb, hvble⟩ := hR b (by simpa using hab) hbopen hbb.1 hbb.2
      obtain ⟨v, hv, hvle⟩ := ih b vb (i + 1) (by simpa using hl)
        (List.chain'_cons.mp hchain).2
        (fun q hq => hopen q (List.mem_cons_of_mem b hq))
        hvb (by omega)
      refine ⟨v, hv, ?_⟩
      simp only [List.length_cons] at hvle ⊢
      omega

/-- What holds of the state after the `while` loop finishes, for a call with
target `en`: the matrix facts of the invariant, plus completeness of
`dist[end]` against every engine walk. -/
structure FinalInv (maze : List (List ℕ)) (rows cols : ℕ) (st en : ℕ × ℕ)
    (s : DState) : Prop where
  maze_eq : s.maze = maze
  dist_rect : Rect s.dist rows cols
  prev_rect : Rect s.prev rows cols
  start_zero : idx2 s.dist st.1 st.2 = some (some 0)
  zero_start : ∀ x y, idx2 s.dist x y = some (some 0) → (x, y) = st
  sound_dist : ∀ x y v, idx2 s.dist x y = some (some v) → WalkLen maze st (x, y) v
  prev_inv : ∀ x y c', idx2 s.prev x y = some (some c') →
    adjP c' (x, y) ∧ openAt maze (x, y) ∧
    ∃ v v', idx2 s.dist x y = some (some v) ∧
      idx2 s.dist c'.1 c'.2 = some (some v') ∧ v' < v
  prev_some : ∀ x y v, idx2 s.dist x y = some (some v) → (x, y) ≠ st →
    ∃ c', idx2 s.prev x y = some (some c')
  complete : ∀ p, ReachPath maze st en p →
    ∃ v, idx2 s.dist en.1 en.2 = some (some v) ∧ v + 1 ≤ p.length

theorem dloop_post {maze : List (List ℕ)} {rows cols : ℕ} {st en : ℕ × ℕ}
    (hmrect : Rect maze rows cols) :
    ∀ (fuel : ℕ) (s : DState), Inv maze rows cols st s → mu s < fuel →
      FinalInv maze rows cols st en (dloop rows cols en fuel s) := by
  intro fuel
  induction fuel with
  | zero => intro s _ hmu; omega
  | succ fuel ih =>
    intro s hInv hmu
    cases hpq : popMin s.pq with
    | none =>
      have hfinal : dloop rows cols en (fuel + 1) s = s := by
        simp [dloop, hpq]
      rw [hfinal]
      have hclosed : ∀ a b v, idx2 s.dist a b = some (some v) →
          ∀ c', adjP (a, b) c' → openAt maze c' → c'.1 < rows → c'.2 < cols →
            ∃ v', idx2 s.dist c'.1 c'.2 = some (some v') ∧ v' ≤ v + 1 := by
        intro a b v hv c' hadj hopen hb1 hb2
        rcases hInv.relax_inv a b v hv with hL | hR
        · rw [(popMin_none_iff s.pq).mp hpq] at hL
          simp at hL
        · exact hR c' hadj hopen hb1 hb2
      refine
        { maze_eq := hInv.maze_eq
          dist_rect := hInv.dist_rect
          prev_rect := hInv.prev_rect
          start_zero := hInv.start_zero
          zero_start := hInv.zero_start
          sound_dist := hInv.sound_dist
          prev_inv := hInv.prev_inv
          prev_some := hInv.prev_some
          complete := ?_ }
      intro p hp
      obtain ⟨hh, hl, hchain, hopen⟩ := hp
      cases p with
      | nil => simp at hh
      | cons a t =>
        have ha : a = st := by simpa using hh
        rw [ha] at hl hchain hopen
        obtain ⟨v, hv, hvle⟩ := walk_dist_le hmrect hclosed t st en 0
          hl hchain (by simpa using hopen) hInv.start_zero
        refine ⟨v, hv, ?_⟩
        simp only [List.length_cons]
        omega
    | some pr =>
      obtain ⟨⟨d, x, y⟩, rest⟩ := pr
      by_cases hend : (x, y) = en
      · have hfinal : dloop rows cols en (fuel + 1) s = { s with pq := rest } := by
          simp [dloop, hpq, hend]
        rw [hfinal]
        obtain ⟨ex, ey⟩ := en
        have hpop' : popMin s.pq = some ((d, ex, ey), rest) := by
          rw [hpq, hend]
        refine
          { maze_eq := hInv.maze_eq
            dist_rect := hInv.dist_rect
            prev_rect := hInv.prev_rect
            start_zero := hInv.start_zero
            zero_start := hInv.zero_start
            sound_dist := hInv.sound_dist
            prev_inv := hInv.prev_inv
            prev_some := hInv.prev_some
            complete := ?_ }
        intro p hp
        obtain ⟨hh, hl, hchain, hopen⟩ := hp
        cases p with
        | nil => simp at hh
        | cons a t =>
          have ha : a = st := by simpa using hh
          rw [ha] at hl hchain hopen
          obtain ⟨v, hv, hvle⟩ := walk_dist_break hmrect hInv hpop' t st 0 0
            hl hchain (by simpa using hopen) hInv.start_zero (le_refl 0)
          refine ⟨v, ?_, ?_⟩
          · simpa using hv
          · simp only [List.length_cons]
            omega
      · have hfinal : dloop rows cols en (fuel + 1) s =
            dloop rows cols en fuel (relaxAll rows cols d x y { s with pq := rest }) := by
          simp [dloop, hpq, hend]
        rw [hfinal]
        obtain ⟨hInv', hmu'⟩ := inv_step hInv hpq
        exact ih _ hInv' (by omega)

/-! ### Correctness of the path reconstruction -/

theorem reconstruct_ok {maze : List (List ℕ)} {rows cols : ℕ} {st en : ℕ × ℕ}
    {s : DState} (hF : FinalInv maze rows cols st en s) :
    ∀ (v : ℕ) (c : ℕ × ℕ), idx2 s.dist c.1 c.2 = some (some v) →
      ∀ fl, v < fl →
        ∃ p, reconstructPath s.prev st fl c = some p ∧
          p.head? = some st ∧ p.getLast? = some c ∧ List.Chain' adjP p ∧
          (∀ q ∈ p.tail, openAt maze q) ∧ p.length ≤ v + 1 := by
  intro v
  induction v using Nat.strong_induction_on with
  | _ v ih =>
    intro c hdc fl hfl
    obtain ⟨fl', rfl⟩ : ∃ fl', fl = fl' + 1 := ⟨fl - 1, by omega⟩
    by_cases hcst : c = st
    · refine ⟨[st], ?_, by simp, by simp [hcst], by simp, by simp, by simp⟩
      unfold reconstructPath
      rw [if_pos hcst]
    · obtain ⟨c', hc'⟩ := hF.prev_some c.1 c.2 v hdc (by simpa using hcst)
      obtain ⟨hadj, hopen, w, w', hw, hw', hlt⟩ := hF.prev_inv c.1 c.2 c' hc'
      have hwv : w = v := by
        rw [hdc] at hw
        exact (Option.some_inj.mp (Option.some_inj.mp hw)).symm
      subst hwv
      obtain ⟨p', hrec', hh', hl', hchain', hopen', hlen'⟩ :=
        ih w' hlt c' hw' fl' (by omega)
      refine ⟨p' ++ [c], ?_, ?_, ?_, ?_, ?_, ?_⟩
      · unfold reconstructPath
        rw [if_neg hcst]
        have hcc : idx2 s.prev c.1 c.2 = some (some c') := hc'
        rw [hcc]
        show Option.map (fun p => p ++ [c]) (reconstructPath s.prev st fl' c') =
          some (p' ++ [c])
        rw [hrec']
        rfl
      · cases p' with
        | nil => simp at hh'
        | cons a t => simpa using hh'
      · rw [List.getLast?_concat]
      · rw [List.chain'_append]
        refine ⟨hchain', by simp, ?_⟩
        intro q1 hq1 q2 hq2
        simp only [List.head?_cons, Option.mem_def, Option.some_inj] at hq2
        rw [hl'] at hq1
        simp only [Option.mem_def, Option.some_inj] at hq1
        rw [← hq1, ← hq2]
        have : adjP c' (c.1, c.2) := hadj
        simpa using this
      · intro q hq
        cases p' with
        | nil => simp at hh'
        | cons a t =>
          simp only [List.cons_append, List.tail_cons] at hq
          rcases List.mem_append.mp hq with hq | hq
          · exact hopen' q hq
          · simp only [List.mem_singleton] at hq
            rw [hq]
            simpa using hopen
      · simp only [List.length_append, List.length_singleton]
        omega

/-! ### Assembling the engine-level specification -/

theorem rect_headD {maze : List (List ℕ)} {rows cols : ℕ}
    (hmrect : Rect maze rows cols) (hpos : 0 < rows) :
    (maze.headD []).length = cols := by
  obtain ⟨hlen, hrow⟩ := hmrect
  cases maze with
  | nil => simp at hlen; omega
  | cons r t => exact hrow r (by simp)

theorem cntInf_mkGrid (rows cols : ℕ) :
    cntInf (mkGrid rows cols (none : Option ℕ)) = rows * cols := by
  unfold cntInf mkGrid
  rw [List.map_replicate, List.sum_replicate]
  have h1 : rowInf (List.replicate cols (none : Option ℕ)) = cols := by
    unfold rowInf
    rw [List.countP_eq_length.mpr (by intro a ha; simp [List.mem_replicate] at ha; simp [ha])]
    simp
  rw [h1]
  simp [Nat.smul_one_eq_cast]

theorem mu_init {maze : List (List ℕ)} {rows cols : ℕ} {st : ℕ × ℕ}
    (hs1 : st.1 < rows) (hs2 : st.2 < cols)
    (hrows : maze.length = rows) (hcols : (maze.headD []).length = cols) :
    mu (initState maze st) < 2 * rows * cols + 1 := by
  subst hrows
  subst hcols
  have hd0 : (initState maze st).dist =
      set2 (mkGrid maze.length (maze.headD []).length (none : Option ℕ))
        st.1 st.2 (some 0) := rfl
  have hq0 : (initState maze st).pq = [(0, st.1, st.2)] := rfl
  have hbase : idx2 (mkGrid maze.length (maze.headD []).length (none : Option ℕ))
      st.1 st.2 = some none :=
    idx2_mkGrid maze.length (maze.headD []).length none hs1 hs2
  have hfill := cntInf_fill hbase 0
  have hmk := cntInf_mkGrid maze.length (maze.headD []).length
  have hpos : 1 ≤ maze.length * (maze.headD []).length :=
    Nat.one_le_iff_ne_zero.mpr (Nat.mul_ne_zero (by omega) (by omega))
  have hassoc : 2 * maze.length * (maze.headD []).length =
      2 * (maze.length * (maze.headD []).length) := by ring
  simp only [mu, hd0, hq0, List.length_singleton, hassoc]
  omega

theorem relaxOne_maze (rows cols d x y : ℕ) (s : DState) (dir : ℤ × ℤ) :
    (relaxOne rows cols d x y s dir).maze = s.maze := by
  unfold relaxOne
  dsimp only
  split
  · split
    · rfl
    · split <;> rfl
  · rfl

theorem relaxAll_maze (rows cols d x y : ℕ) (s : DState) :
    (relaxAll rows cols d x y s).maze = s.maze := by
  simp only [relaxAll, directions, List.foldl_cons, List.foldl_nil]
  rw [relaxOne_maze, relaxOne_maze, relaxOne_maze, relaxOne_maze]

theorem dloop_maze (rows cols : ℕ) (en : ℕ × ℕ) :
    ∀ (fuel : ℕ) (s : DState), (dloop rows cols en fuel s).maze = s.maze := by
  intro fuel
  induction fuel with
  | zero => intro s; rfl
  | succ fuel ih =>
    intro s
    cases hpq : popMin s.pq with
    | none => simp [dloop, hpq]
    | some pr =>
      obtain ⟨⟨d, x, y⟩, rest⟩ := pr
      by_cases hend : (x, y) = en
      · simp [dloop, hpq, hend]
      · have : dloop rows cols en (fuel + 1) s =
            dloop rows cols en fuel (relaxAll rows cols d x y { s with pq := rest }) := by
          simp [dloop, hpq, hend]
        rw [this, ih, relaxAll_maze]

/-- The state after the search loop satisfies the final invariant. -/
theorem dijkstraRun_final {maze : List (List ℕ)} {rows cols : ℕ} {st en : ℕ × ℕ}
    (hmrect : Rect maze rows cols) (hs1 : st.1 < rows) (hs2 : st.2 < cols) :
    FinalInv maze rows cols st en (dijkstraRun maze st en) := by
  have hrows : maze.length = rows := hmrect.1
  have hcols : (maze.headD []).length = cols := rect_headD hmrect (by omega)
  have hInit := @inv_init maze rows cols st hs1 hs2 hrows hcols
  have hmu := mu_init hs1 hs2 hrows hcols
  have hrun : dijkstraRun maze st en =
      dloop rows cols en (2 * rows * cols + 1) (initState maze st) := by
    dsimp only [dijkstraRun]
    rw [hrows, hcols]
  rw [hrun]
  exact dloop_post hmrect (2 * rows * cols + 1) (initState maze st) hInit hmu

/-- Combined specification of `dijkstra`: either it returns a path that starts
at `start`, ends at `end`, moves in unit steps through open cells (the start
cell's state is never inspected), and is no longer than any engine walk; or it
returns `None` and no engine walk from `start` to `end` exists. -/
theorem dijkstra_main {maze : List (List ℕ)} {rows cols : ℕ} {st en : ℕ × ℕ}
    (hmrect : Rect maze rows cols) (hs1 : st.1 < rows) (hs2 : st.2 < cols)
    (he1 : en.1 < rows) (he2 : en.2 < cols) :
    (∃ p, dijkstra maze st en = some p ∧
      p.head? = some st ∧ p.getLast? = some en ∧ List.Chain' adjP p ∧
      (∀ c ∈ p.tail, openAt maze c) ∧
      (∀ q, ReachPath maze st en q → p.length ≤ q.length) ∧
      (∃ q, ReachPath maze st en q)) ∨
    (dijkstra maze st en = none ∧ ¬ ∃ q, ReachPath maze st en q) := by
  have hF := @dijkstraRun_final maze rows cols st en hmrect hs1 hs2
  obtain ⟨o, ho⟩ := idx2_isSome hF.dist_rect he1 he2
  cases o with
  | none =>
    right
    constructor
    · unfold dijkstra
      dsimp only
      rw [ho]
    · rintro ⟨q, hq⟩
      obtain ⟨v, hv, _⟩ := hF.complete q hq
      rw [ho] at hv
      simp at hv
  | some v =>
    left
    obtain ⟨p, hrec, hh, hl, hchain, hopen, hlen⟩ :=
      reconstruct_ok hF v en ho (v + 1) (by omega)
    refine ⟨p, ?_, hh, hl, hchain, hopen, ?_, ?_⟩
    · unfold dijkstra
      dsimp only
      rw [ho]
      exact hrec
    · intro q hq
      obtain ⟨v', hv', hqlen⟩ := hF.complete q hq
      have : v' = v := by
        rw [ho] at hv'
        exact (Option.some_inj.mp (Option.some_inj.mp hv')).symm
      omega
    · obtain ⟨w, ⟨hww, hwl⟩, _⟩ := hF.sound_dist en.1 en.2 v (by simpa using ho)
      exact ⟨w, by simpa using hww, by simpa using hwl⟩

/-! ### Claim theorems for the path engine -/

theorem head_open {maze : List (List ℕ)} {st en : ℕ × ℕ} {p : List (ℕ × ℕ)}
    (hp : OpenPath maze st en p) : openAt maze st := by
  obtain ⟨hh, _, _, hall⟩ := hp
  cases p with
  | nil => simp at hh
  | cons a t =>
    have ha : a = st := by simpa using hh
    rw [← ha]
    exact hall a (by simp)

/-- Shared engine fact: with an all-open walkable path available, `dijkstra`
returns a walkable path of minimal length among all walkable paths. -/
theorem dijkstra_shortest_openPath {maze : List (List ℕ)} {rows cols : ℕ}
    {st en : ℕ × ℕ}
    (hmrect : Rect maze rows cols) (hs1 : st.1 < rows) (hs2 : st.2 < cols)
    (he1 : en.1 < rows) (he2 : en.2 < cols)
    (p0 : List (ℕ × ℕ)) (hp0 : OpenPath maze st en p0) :
    ∃ p, dijkstra maze st en = some p ∧ OpenPath maze st en p ∧
      ∀ q, OpenPath maze st en q → p.length ≤ q.length := by
  rcases dijkstra_main hmrect hs1 hs2 he1 he2 with
    ⟨p, hd, hh, hl, hchain, hopen, hmin, _⟩ | ⟨_, hno⟩
  · refine ⟨p, hd, ⟨hh, hl, hchain, ?_⟩, ?_⟩
    · intro c hc
      cases p with
      | nil => simp at hh
      | cons a t =>
        rcases List.mem_cons.mp hc with hc | hc
        · have ha : a = st := by simpa using hh
          rw [hc, ha]
          exact head_open hp0
        · exact hopen c hc
    · intro q hq
      exact hmin q (openPath_reachPath hq)
  · exact absurd ⟨p0, openPath_reachPath hp0⟩ hno

/-- C1: for every grid snapshot and in-bounds start and end, if at least one
walkable path (a sequence of open cells with 4-adjacent consecutive cells)
from start to end exists, then `dijkstra` returns a walkable path whose
length is minimal among all such walkable paths. -/
theorem C1_dijkstra_shortest {maze : List (List ℕ)} {rows cols : ℕ} {st en : ℕ × ℕ}
    (hmrect : Rect maze rows cols) (hs1 : st.1 < rows) (hs2 : st.2 < cols)
    (he1 : en.1 < rows) (he2 : en.2 < cols)
    (p0 : List (ℕ × ℕ)) (hp0 : OpenPath maze st en p0) :
    ∃ p, dijkstra maze st en = some p ∧ OpenPath maze st en p ∧
      ∀ q, OpenPath maze st en q → p.length ≤ q.length :=
  dijkstra_shortest_openPath hmrect hs1 hs2 he1 he2 p0 hp0

theorem openPath_concrete :
    OpenPath [[0, 0], [0, 0]] (0, 0) (1, 1) [(0, 0), (0, 1), (1, 1)] := by
  refine ⟨by decide, by decide, ?_, by decide⟩
  simp only [List.chain'_cons, List.chain'_singleton, and_true]
  exact ⟨by decide, by decide⟩

/-- C1 witness: a concrete 2 x 2 open grid with a concrete walkable path. -/
theorem C1_dijkstra_shortest_witness :
    Rect [[0, 0], [0, 0]] 2 2 ∧
    OpenPath [[0, 0], [0, 0]] (0, 0) (1, 1) [(0, 0), (0, 1), (1, 1)] ∧
    ∃ p, dijkstra [[0, 0], [0, 0]] (0, 0) (1, 1) = some p ∧
      OpenPath [[0, 0], [0, 0]] (0, 0) (1, 1) p ∧
      ∀ q, OpenPath [[0, 0], [0, 0]] (0, 0) (1, 1) q → p.length ≤ q.length :=
  ⟨by decide, openPath_concrete,
    @C1_dijkstra_shortest [[0, 0], [0, 0]] 2 2 (0, 0) (1, 1)
      (by decide) (by decide) (by decide) (by decide) (by decide)
      [(0, 0), (0, 1), (1, 1)] openPath_concrete⟩

theorem adjP_symm {a b : ℕ × ℕ} (h : adjP a b) : adjP b a := by
  rcases h with ⟨h1, h2 | h2⟩ | ⟨h1, h2 | h2⟩
  · exact Or.inl ⟨h1.symm, Or.inr h2⟩
  · exact Or.inl ⟨h1.symm, Or.inl h2⟩
  · exact Or.inr ⟨h1.symm, Or.inr h2⟩
  · exact Or.inr ⟨h1.symm, Or.inl h2⟩

/-- In a chain of at least two cells ending at `en`, some cell of the
front part (everything except the final cell) is 4-adjacent to `en`. -/
theorem chain_last_step {en : ℕ × ℕ} :
    ∀ (t : List (ℕ × ℕ)) (a b : ℕ × ℕ),
      List.Chain' adjP (a :: b :: t) → (a :: b :: t).getLast? = some en →
      ∃ w, adjP w en ∧ w ∈ (a :: b :: t).dropLast := by
  intro t
  induction t with
  | nil =>
    intro a b hchain hl
    have hb : b = en := by simpa using hl
    refine ⟨a, ?_, by simp⟩
    rw [← hb]
    exact (List.chain'_cons.mp hchain).1
  | cons c t' ih =>
    intro a b hchain hl
    obtain ⟨w, hw, hmem⟩ := ih b c (List.chain'_cons.mp hchain).2 (by simpa using hl)
    refine ⟨w, hw, ?_⟩
    have hne : (b :: c :: t') ≠ [] := by simp
    rw [List.dropLast_cons_of_ne_nil hne]
    exact List.mem_cons_of_mem a hmem

/-- C2 counterexample, both for the main sentence and for the enclosure
sentence.  On the 1 x 1 all-blocked grid with `start = end`, no all-open
walkable path exists yet `dijkstra` does not return `None`; and on
`[[1, 0]]` the end `(0, 1)` has no open neighbor and differs from the start,
yet a path is returned — the engine never inspects the start cell's state,
so the blocked start steps directly into the enclosed end. -/
theorem C2_none_iff_counterexample :
    (dijkstra [[1]] (0, 0) (0, 0) = some [(0, 0)] ∧
      ¬ ∃ p, OpenPath [[1]] (0, 0) (0, 0) p) ∧
    (((0, 0) : ℕ × ℕ) ≠ (0, 1) ∧
      (∀ c : ℕ × ℕ, adjP (0, 1) c → ¬ openAt [[1, 0]] c) ∧
      dijkstra [[1, 0]] (0, 0) (0, 1) = some [(0, 0), (0, 1)]) := by
  refine ⟨⟨by decide, ?_⟩, by decide, ?_, by decide⟩
  · rintro ⟨p, hp⟩
    have := head_open hp
    simp [openAt, idx2] at this
  · intro c hadj hopen
    have hrect : Rect [[1, 0]] 1 2 := by decide
    have hb := idx2_bounds hrect hopen
    obtain ⟨c1, c2⟩ := c
    have hc1 : c1 = 0 := by omega
    have hc2 : c2 = 0 ∨ c2 = 1 := by omega
    subst hc1
    rcases hc2 with hc2 | hc2 <;> subst hc2
    · exact absurd hopen (by decide)
    · exact absurd hadj (by decide)

/-- C2 as amended: `dijkstra` returns `None` exactly when there is no path
from `start` to `end` whose consecutive cells are 4-adjacent and whose cells
after the first are open (the state of the start cell itself is never
inspected).  Consequently an `end` with no open 4-neighbor yields `None`
provided `start` differs from `end` and is not itself 4-adjacent to `end`;
a start adjacent to the enclosed end can step straight into it. -/
theorem C2_none_iff {maze : List (List ℕ)} {rows cols : ℕ} {st en : ℕ × ℕ}
    (hmrect : Rect maze rows cols) (hs1 : st.1 < rows) (hs2 : st.2 < cols)
    (he1 : en.1 < rows) (he2 : en.2 < cols) :
    (dijkstra maze st en = none ↔ ¬ ∃ p, ReachPath maze st en p) ∧
    (st ≠ en → ¬ adjP st en → (∀ c, adjP en c → ¬ openAt maze c) →
      dijkstra maze st en = none) := by
  have hiff : dijkstra maze st en = none ↔ ¬ ∃ p, ReachPath maze st en p := by
    rcases dijkstra_main hmrect hs1 hs2 he1 he2 with
      ⟨p, hd, _, _, _, _, _, hex⟩ | ⟨hnone, hno⟩
    · constructor
      · intro h
        rw [hd] at h
        simp at h
      · intro h
        exact absurd hex h
    · constructor
      · intro _
        exact hno
      · intro _
        exact hnone
  refine ⟨hiff, ?_⟩
  intro hne hnadj hencl
  rw [hiff]
  rintro ⟨p, hh, hl, hchain, hopen⟩
  cases p with
  | nil => simp at hh
  | cons a t =>
    have ha : a = st := by simpa using hh
    cases t with
    | nil =>
      have hae : a = en := by simpa using hl
      exact hne (by rw [← ha, hae])
    | cons b t' =>
      obtain ⟨w, hw, hmem⟩ := chain_last_step t' a b hchain hl
      have hne' : (b :: t') ≠ [] := by simp
      rw [List.dropLast_cons_of_ne_nil hne'] at hmem
      rcases List.mem_cons.mp hmem with hwa | hwtail
      · exact hnadj (by rw [← ha, ← hwa]; exact hw)
      · have hwopen : openAt maze w := by
          apply hopen
          simp only [List.tail_cons]
          exact List.dropLast_subset _ hwtail
        exact hencl w (adjP_symm hw) hwopen

/-- C2 witness for the amended statement: the 1 x 2 grid `[[0, 1]]` with a
blocked end, where the iff instantiates with both sides true. -/
theorem C2_none_iff_witness :
    Rect [[0, 1]] 1 2 ∧
    ((dijkstra [[0, 1]] (0, 0) (0, 1) = none ↔
        ¬ ∃ p, ReachPath [[0, 1]] (0, 0) (0, 1) p) ∧
      (((0, 0) : ℕ × ℕ) ≠ (0, 1) → ¬ adjP (0, 0) (0, 1) →
        (∀ c, adjP (0, 1) c → ¬ openAt [[0, 1]] c) →
        dijkstra [[0, 1]] (0, 0) (0, 1) = none)) :=
  ⟨by decide,
    @C2_none_iff [[0, 1]] 1 2 (0, 0) (0, 1)
      (by decide) (by decide) (by decide) (by decide) (by decide)⟩

/-- C3 counterexample: on `[[1, 0]]` the engine returns the path
`[(0,0), (0,1)]` although its start cell `(0,0)` is blocked, refuting the
claim that every cell of a returned path — including start — is open. -/
theorem C3_path_open_counterexample :
    ¬ ∀ p, dijkstra [[1, 0]] (0, 0) (0, 1) = some p →
      ∀ c ∈ p, openAt [[1, 0]] c := by
  intro h
  have := h [(0, 0), (0, 1)] (by decide) (0, 0) (by simp)
  simp [openAt, idx2] at this

/-- C3 as amended: every returned path runs from `start` to `end`, its
consecutive coordinates are 4-adjacent, and every cell after the first —
the engine never inspects the start cell — is open in the snapshot used. -/
theorem C3_path_shape {maze : List (List ℕ)} {rows cols : ℕ} {st en : ℕ × ℕ}
    (hmrect : Rect maze rows cols) (hs1 : st.1 < rows) (hs2 : st.2 < cols)
    (he1 : en.1 < rows) (he2 : en.2 < cols)
    (p : List (ℕ × ℕ)) (hp : dijkstra maze st en = some p) :
    p.head? = some st ∧ p.getLast? = some en ∧ List.Chain' adjP p ∧
    ∀ c ∈ p.tail, openAt maze c := by
  rcases dijkstra_main hmrect hs1 hs2 he1 he2 with
    ⟨p', hd, hh, hl, hchain, hopen, _, _⟩ | ⟨hnone, _⟩
  · rw [hd] at hp
    have hpp : p' = p := Option.some_inj.mp hp
    subst hpp
    exact ⟨hh, hl, hchain, hopen⟩
  · rw [hnone] at hp
    simp at hp

/-- C3 witness: a concrete returned path on a 1 x 2 open grid. -/
theorem C3_path_shape_witness :
    Rect [[0, 0]] 1 2 ∧ dijkstra [[0, 0]] (0, 0) (0, 1) = some [(0, 0), (0, 1)] ∧
    ([(0, 0), (0, 1)].head? = some (0, 0) ∧
      [(0, 0), (0, 1)].getLast? = some (0, 1) ∧
      List.Chain' adjP [(0, 0), (0, 1)] ∧
      ∀ c ∈ [(0, 0), (0, 1)].tail, openAt [[0, 0]] c) :=
  ⟨by decide, by decide,
    @C3_path_shape [[0, 0]] 1 2 (0, 0) (0, 1)
      (by decide) (by decide) (by decide) (by decide) (by decide)
      [(0, 0), (0, 1)] (by decide)⟩

/-- C5: on a grid with no obstacles the returned path has exactly the
Manhattan hop count plus one coordinates. -/
theorem C5_manhattan_length {maze : List (List ℕ)} {rows cols : ℕ} {st en : ℕ × ℕ}
    (hmrect : Rect maze rows cols)
    (hall : ∀ x y, x < rows → y < cols → openAt maze (x, y))
    (hs1 : st.1 < rows) (hs2 : st.2 < cols) (he1 : en.1 < rows) (he2 : en.2 < cols) :
    ∃ p, dijkstra maze st en = some p ∧ p.length = manh st en + 1 := by
  obtain ⟨p0, hp0, hlen0⟩ :=
    exists_manh_path hall (manh st en) st en rfl hs1 hs2 he1 he2
  obtain ⟨p, hd, hpopen, hmin⟩ :=
    dijkstra_shortest_openPath hmrect hs1 hs2 he1 he2 p0 hp0
  refine ⟨p, hd, ?_⟩
  have hub : p.length ≤ manh st en + 1 := hlen0 ▸ hmin p0 hp0
  have hlb : manh st en + 1 ≤ p.length :=
    manh_le_chain p st en hpopen.2.2.1 hpopen.1 hpopen.2.1
  omega

/-- C5 witness: the concrete 3 x 3 all-open grid from the spec's test
scenario, where the path must have exactly five coordinates. -/
theorem C5_manhattan_length_witness :
    Rect [[0, 0, 0], [0, 0, 0], [0, 0, 0]] 3 3 ∧
    ∃ p, dijkstra [[0, 0, 0], [0, 0, 0], [0, 0, 0]] (0, 0) (2, 2) = some p ∧
      p.length = manh (0, 0) (2, 2) + 1 :=
  ⟨by decide,
    @C5_manhattan_length [[0, 0, 0], [0, 0, 0], [0, 0, 0]] 3 3 (0, 0) (2, 2)
      (by decide)
      (by intro x y hx hy; interval_cases x <;> interval_cases y <;> decide)
      (by decide) (by decide) (by decide) (by decide)⟩

/-- C6: for any in-bounds cell `c`, `dijkstra(maze, c, c)` returns the
single-coordinate path `[c]` whatever the grid contents: the first extracted
frontier entry is `end` itself and the loop breaks with distance `0`. -/
theorem C6_start_eq_end {maze : List (List ℕ)} {rows cols : ℕ} {c : ℕ × ℕ}
    (hmrect : Rect maze rows cols) (h1 : c.1 < rows) (h2 : c.2 < cols) :
    dijkstra maze c c = some [c] := by
  rcases dijkstra_main hmrect h1 h2 h1 h2 with
    ⟨p, hd, hh, _, _, _, hmin, _⟩ | ⟨_, hno⟩
  · have h1m : p.length ≤ 1 := by
      have := hmin [c] ⟨by simp, by simp, by simp, by simp⟩
      simpa using this
    cases p with
    | nil => simp at hh
    | cons a t =>
      have ht : t = [] := by
        simp only [List.length_cons] at h1m
        exact List.length_eq_zero.mp (by omega)
      subst ht
      have ha : a = c := by simpa using hh
      rw [ha] at hd
      exact hd
  · exact absurd ⟨[c], by simp, by simp, by simp, by simp⟩ hno

/-- C6 witness: the 1 x 1 all-blocked grid; the engine still returns `[c]`. -/
theorem C6_start_eq_end_witness :
    Rect [[1]] 1 1 ∧ dijkstra [[1]] (0, 0) (0, 0) = some [(0, 0)] :=
  ⟨by decide,
    @C6_start_eq_end [[1]] 1 1 (0, 0) (by decide) (by decide) (by decide)⟩

/-- C9: a `dijkstra` call never mutates the grid it threads through its
state: the grid in the final search state is the one passed in.  The
distance matrix, predecessor matrix and frontier exist only inside the call
state and are not part of the result. -/
theorem C9_dijkstra_frame (maze : List (List ℕ)) (st en : ℕ × ℕ) :
    (dijkstraFull maze st en).2 = maze := by
  show (dijkstraRun maze st en).maze = maze
  unfold dijkstraRun
  rw [dloop_maze]
  rfl

/-- C10: with `start ≠ end` and a blocked `end` cell, `dijkstra` returns
`None`: relaxation only ever assigns distances to open cells, so a blocked
`end` never becomes finite. -/
theorem C10_blocked_end {maze : List (List ℕ)} {rows cols : ℕ} {st en : ℕ × ℕ}
    (hmrect : Rect maze rows cols) (hs1 : st.1 < rows) (hs2 : st.2 < cols)
    (he1 : en.1 < rows) (he2 : en.2 < cols)
    {w : ℕ} (hblock : idx2 maze en.1 en.2 = some w) (hw : w ≠ 0)
    (hne : st ≠ en) :
    dijkstra maze st en = none := by
  rcases dijkstra_main hmrect hs1 hs2 he1 he2 with
    ⟨p, hd, hh, hl, hchain, hopen, _, _⟩ | ⟨hnone, _⟩
  · exfalso
    cases p with
    | nil => simp at hh
    | cons a t =>
      have ha : a = st := by simpa using hh
      cases t with
      | nil =>
        have : a = en := by simpa using hl
        exact hne (by rw [← ha, this])
      | cons b t' =>
        have hent : en ∈ (b :: t') := by
          have hl' : (b :: t').getLast? = some en := by simpa using hl
          have := List.getLast?_eq_getLast (b :: t') (by simp)
          rw [this] at hl'
          have := @List.getLast_mem _ (b :: t') (by simp)
          rwa [Option.some_inj.mp hl'] at this
        have hopen' : openAt maze en := hopen en (by simpa using hent)
        rw [hopen'] at hblock
        exact hw (Option.some_inj.mp hblock.symm)
  · exact hnone

/-- C10 witness: the 1 x 2 grid with a blocked end cell. -/
theorem C10_blocked_end_witness :
    Rect [[0, 1]] 1 2 ∧ idx2 [[0, 1]] 0 1 = some 1 ∧ (1 : ℕ) ≠ 0 ∧
    dijkstra [[0, 1]] (0, 0) (0, 1) = none :=
  ⟨by decide, by decide, by decide,
    @C10_blocked_end [[0, 1]] 1 2 (0, 0) (0, 1)
      (by decide) (by decide) (by decide) (by decide) (by decide)
      1 (by decide) (by decide) (by decide)⟩

/-! ### The grid model of the app: `left_click` and `generate_random_walls`

`ROWS, COLS = 15, 15` in the source; the grid-model operations work on
whatever matrix the state holds, so they are stated for general dimensions.
Clicking happens through Python int arithmetic (`event.y // CELL_SIZE`), so
cell coordinates are integers and list accesses follow Python semantics:
negative indices wrap from the end, indices outside `[-len, len)` raise
IndexError (modeled as `none`). -/

/-- Python list index resolution. -/
def pyIdx (len : ℕ) (i : ℤ) : Option ℕ :=
  if 0 ≤ i then (if i < (len : ℤ) then some i.toNat else none)
  else (if 0 ≤ i + (len : ℤ) then some (i + (len : ℤ)).toNat else none)

/-- `l[i]` with Python semantics. -/
def pyGet {α : Type} (l : List α) (i : ℤ) : Option α :=
  (pyIdx l.length i).bind (fun j => l[j]?)

/-- `l[i] = a` with Python semantics. -/
def pySet {α : Type} (l : List α) (i : ℤ) (a : α) : Option (List α) :=
  (pyIdx l.length i).map (fun j => l.set j a)

/-- `m[i][j]` with Python semantics. -/
def pyGet2 (m : List (List ℕ)) (i j : ℤ) : Option ℕ :=
  (pyGet m i).bind (fun row => pyGet row j)

/-- `m[i][j] = v` with Python semantics: fetch row `i`, update its slot `j`,
store the updated row back at the resolved position. -/
def pySet2 (m : List (List ℕ)) (i j : ℤ) (v : ℕ) : Option (List (List ℕ)) :=
  (pyGet m i).bind (fun row =>
    (pySet row j v).bind (fun row' => pySet m i row'))

/-- The caller-visible grid-model state: the wall matrix and the optional
Start and End markers (Python keeps them as int pairs or `None`). -/
structure AppState where
  maze : List (List ℕ)
  start : Option (ℤ × ℤ)
  endP : Option (ℤ × ℤ)
deriving DecidableEq

/-- `left_click` (lines 75-79) at cell coordinates `(row, col)` — the
pixel-to-cell division is presentation glue.  Marks the cell as a wall iff it
is currently open and is neither Start nor End; otherwise does nothing.
`none` models the uncaught IndexError Python raises when the row or column is
outside its wrap range. -/
def left_click (s : AppState) (row col : ℤ) : Option AppState :=
  match pyGet2 s.maze row col with
  | none => none
  | some v =>
    if v = 0 ∧ some (row, col) ≠ s.start ∧ some (row, col) ≠ s.endP then
      (pySet2 s.maze row col 1).map (fun m' => { s with maze := m' })
    else some s

/-- One body of the `while placed < wall_count:` loop of
`generate_random_walls` (lines 96-102) for the random draw `(r, c)`:
the updated grid and whether a wall was placed.  `randint` draws are
nonnegative, and the Start/End comparisons coerce them to Python ints. -/
def gw_step (start endP : Option (ℤ × ℤ)) (m : List (List ℕ))
    (draw : ℕ × ℕ) : List (List ℕ) × Bool :=
  if some ((draw.1 : ℤ), (draw.2 : ℤ)) ≠ start ∧
      some ((draw.1 : ℤ), (draw.2 : ℤ)) ≠ endP ∧
      idx2 m draw.1 draw.2 = some 0 then
    (set2 m draw.1 draw.2 1, true)
  else (m, false)

/-- The state of `generate_random_walls` after `n` iterations of its loop,
the `i`-th iteration drawing `rng i`: the grid and the `placed` counter.
The loop itself runs these iterations until `placed = wallCount`; it
terminates exactly when some `n` reaches that count. -/
def gw_iter (start endP : Option (ℤ × ℤ)) (wallCount : ℕ) (rng : ℕ → ℕ × ℕ)
    (m0 : List (List ℕ)) : ℕ → List (List ℕ) × ℕ
  | 0 => (m0, 0)
  | n + 1 =>
    let st := gw_iter start endP wallCount rng m0 n
    if st.2 < wallCount then
      let step := gw_step start endP st.1 (rng n)
      (step.1, if step.2 then st.2 + 1 else st.2)
    else st

/-- `wall_count = int(ROWS * COLS * density)` with the default
`density = 0.25` on the 15 x 15 grid: `int(56.25) = 56`. -/
def default_wall_count : ℕ := 56

/-! ### Claim theorems for the grid model -/

theorem pyGet2_inb {m : List (List ℕ)} {rows cols : ℕ} (hrect : Rect m rows cols)
    {row col : ℤ} (hr0 : 0 ≤ row) (hr : row < (rows : ℤ))
    (hc0 : 0 ≤ col) (hc : col < (cols : ℤ)) :
    pyGet2 m row col = idx2 m row.toNat col.toNat := by
  obtain ⟨hlen, hrow⟩ := hrect
  unfold pyGet2 pyGet pyIdx idx2
  rw [hlen]
  rw [if_pos hr0, if_pos hr]
  simp only [Option.some_bind]
  cases hg : m[row.toNat]? with
  | none => simp
  | some r =>
    have hmem : r ∈ m := by
      obtain ⟨hlt, he⟩ := List.getElem?_eq_some_iff.mp hg
      exact he ▸ List.getElem_mem hlt
    simp only [Option.some_bind]
    rw [hrow r hmem]
    rw [if_pos hc0, if_pos hc]
    simp

theorem pySet2_inb {m : List (List ℕ)} {rows cols : ℕ} (hrect : Rect m rows cols)
    {row col : ℤ} (hr0 : 0 ≤ row) (hr : row < (rows : ℤ))
    (hc0 : 0 ≤ col) (hc : col < (cols : ℤ)) (v : ℕ) :
    pySet2 m row col v = some (set2 m row.toNat col.toNat v) := by
  obtain ⟨hlen, hrow⟩ := hrect
  unfold pySet2 pyGet pySet pyIdx set2
  rw [hlen, if_pos hr0, if_pos hr]
  simp only [Option.some_bind]
  have hlt : row.toNat < m.length := by omega
  obtain ⟨r, hg⟩ : ∃ r, m[row.toNat]? = some r :=
    ⟨m[row.toNat], List.getElem?_eq_getElem hlt⟩
  rw [hg]
  have hmem : r ∈ m := by
    obtain ⟨hlt', he⟩ := List.getElem?_eq_some_iff.mp hg
    exact he ▸ List.getElem_mem hlt'
  simp only [Option.some_bind]
  rw [hrow r hmem, if_pos hc0, if_pos hc]
  simp

/-- C7: `ToggleObstacle` on an in-bounds cell never fails, leaves Start and
End untouched, blocks the cell iff it is open and is neither the Start nor
the End coordinate, and otherwise leaves the grid unchanged. -/
theorem C7_toggle_obstacle {s : AppState} {rows cols : ℕ}
    (hrect : Rect s.maze rows cols) {row col : ℤ}
    (hr0 : 0 ≤ row) (hr : row < (rows : ℤ)) (hc0 : 0 ≤ col) (hc : col < (cols : ℤ)) :
    ∃ s', left_click s row col = some s' ∧
      s'.start = s.start ∧ s'.endP = s.endP ∧
      ((idx2 s.maze row.toNat col.toNat = some 0 ∧ some (row, col) ≠ s.start ∧
          some (row, col) ≠ s.endP) →
        s'.maze = set2 s.maze row.toNat col.toNat 1) ∧
      (¬ (idx2 s.maze row.toNat col.toNat = some 0 ∧ some (row, col) ≠ s.start ∧
          some (row, col) ≠ s.endP) →
        s'.maze = s.maze) := by
  have hg2 := pyGet2_inb hrect hr0 hr hc0 hc
  have hrows0 : 0 < rows := by omega
  have hcols0 : 0 < cols := by omega
  obtain ⟨v, hv⟩ := @idx2_isSome ℕ s.maze rows cols hrect row.toNat col.toNat
    (by omega) (by omega)
  unfold left_click
  rw [hg2, hv]
  dsimp only
  by_cases hcond : v = 0 ∧ some (row, col) ≠ s.start ∧ some (row, col) ≠ s.endP
  · rw [if_pos hcond, pySet2_inb hrect hr0 hr hc0 hc 1]
    refine ⟨{ s with maze := set2 s.maze row.toNat col.toNat 1 }, rfl, rfl, rfl,
      fun _ => rfl, ?_⟩
    intro hn
    exact absurd ⟨congrArg some hcond.1, hcond.2.1, hcond.2.2⟩ hn
  · rw [if_neg hcond]
    refine ⟨s, rfl, rfl, rfl, ?_, fun _ => rfl⟩
    intro ⟨h0, hs, he⟩
    exact absurd ⟨Option.some_inj.mp h0, hs, he⟩ hcond

/-- C7 witness: toggling the open cell `(0, 1)` of a 1 x 2 grid. -/
theorem C7_toggle_obstacle_witness :
    Rect [[0, 0]] 1 2 ∧
    ∃ s', left_click ⟨[[0, 0]], none, none⟩ 0 1 = some s' ∧
      s'.start = (⟨[[0, 0]], none, none⟩ : AppState).start ∧
      s'.endP = (⟨[[0, 0]], none, none⟩ : AppState).endP ∧
      ((idx2 [[0, 0]] (0 : ℤ).toNat (1 : ℤ).toNat = some 0 ∧
          some ((0 : ℤ), (1 : ℤ)) ≠ (⟨[[0, 0]], none, none⟩ : AppState).start ∧
          some ((0 : ℤ), (1 : ℤ)) ≠ (⟨[[0, 0]], none, none⟩ : AppState).endP) →
        s'.maze = set2 [[0, 0]] (0 : ℤ).toNat (1 : ℤ).toNat 1) ∧
      (¬ (idx2 [[0, 0]] (0 : ℤ).toNat (1 : ℤ).toNat = some 0 ∧
          some ((0 : ℤ), (1 : ℤ)) ≠ (⟨[[0, 0]], none, none⟩ : AppState).start ∧
          some ((0 : ℤ), (1 : ℤ)) ≠ (⟨[[0, 0]], none, none⟩ : AppState).endP) →
        s'.maze = [[0, 0]]) :=
  ⟨by decide,
    @C7_toggle_obstacle ⟨[[0, 0]], none, none⟩ 1 2
      (by decide) 0 1 (by decide) (by decide) (by decide) (by decide)⟩

/-- C8 counterexample: a negative row is not rejected — Python's negative
indexing silently wraps it to the last row, and the click mutates that
wrapped cell instead of failing with an InvalidCoordinate error. -/
theorem C8_invalid_coordinate_counterexample :
    left_click ⟨[[0, 0], [0, 0]], none, none⟩ (-1) 0 =
      some ⟨[[0, 0], [1, 0]], none, none⟩ ∧
    ([[0, 0], [1, 0]] : List (List ℕ)) ≠ [[0, 0], [0, 0]] := by
  constructor
  · decide
  · decide

/-- C8 as amended: no operation rejects with a dedicated InvalidCoordinate
error.  A coordinate beyond Python's wrap range surfaces as an uncaught
IndexError (modeled `none`), and a negative row inside the wrap range wraps
to `row + rows` and toggles that cell. -/
theorem C8_out_of_bounds_behavior {s : AppState} {rows cols : ℕ}
    (hrect : Rect s.maze rows cols) (row col : ℤ) :
    ((rows : ℤ) ≤ row ∨ row < -(rows : ℤ) → left_click s row col = none) ∧
    (-(rows : ℤ) ≤ row → row < 0 → 0 ≤ col → col < (cols : ℤ) →
      idx2 s.maze (row + rows).toNat col.toNat = some 0 →
      some (row, col) ≠ s.start → some (row, col) ≠ s.endP →
      left_click s row col =
        some { s with maze := set2 s.maze (row + rows).toNat col.toNat 1 }) := by
  constructor
  · intro hoob
    unfold left_click pyGet2 pyGet pyIdx
    rw [hrect.1]
    rcases hoob with hbig | hsmall
    · have h1 : ¬ ((rows : ℤ) ≤ row → False) := fun hc => hc hbig
      by_cases h0 : 0 ≤ row
      · rw [if_pos h0, if_neg (by omega)]
        simp
      · rw [if_neg h0]
        rw [if_neg (by omega)]
        simp
    · rw [if_neg (by omega), if_neg (by omega)]
      simp
  · intro hge hlt hc0 hcc hopen hs he
    have hpy : pyGet2 s.maze row col = idx2 s.maze (row + rows).toNat col.toNat := by
      obtain ⟨hlen, hrow⟩ := hrect
      unfold pyGet2 pyGet pyIdx idx2
      rw [hlen, if_neg (by omega), if_pos (by omega)]
      simp only [Option.some_bind]
      cases hg : s.maze[(row + rows).toNat]? with
      | none => simp [hg]
      | some r =>
        have hmem : r ∈ s.maze := by
          obtain ⟨hlt', hge'⟩ := List.getElem?_eq_some_iff.mp hg
          exact hge' ▸ List.getElem_mem hlt'
        simp only [hg, Option.some_bind]
        rw [hrow r hmem, if_pos hc0, if_pos hcc]
        simp
    have hpys : pySet2 s.maze row col 1 =
        some (set2 s.maze (row + rows).toNat col.toNat 1) := by
      obtain ⟨hlen, hrow⟩ := hrect
      unfold pySet2 pyGet pySet pyIdx set2
      rw [hlen, if_neg (by omega), if_pos (by omega)]
      simp only [Option.some_bind]
      have hlt' : (row + rows).toNat < s.maze.length := by omega
      obtain ⟨r, hg⟩ : ∃ r, s.maze[(row + rows).toNat]? = some r :=
        ⟨s.maze[(row + rows).toNat], List.getElem?_eq_getElem hlt'⟩
      rw [hg]
      have hmem : r ∈ s.maze := by
        obtain ⟨hlt'', hge'⟩ := List.getElem?_eq_some_iff.mp hg
        exact hge' ▸ List.getElem_mem hlt''
      simp only [Option.some_bind]
      rw [hrow r hmem, if_pos hc0, if_pos hcc]
      simp
    unfold left_click
    rw [hpy, hopen]
    dsimp only
    rw [if_pos ⟨rfl, hs, he⟩, hpys]
    rfl

/-- C8 witness for the amended behavior: a 2 x 2 grid, a too-large row for
the IndexError half and row `-1` for the wrapping half. -/
theorem C8_out_of_bounds_behavior_witness :
    Rect [[0, 0], [0, 0]] 2 2 ∧
    (((2 : ℤ) ≤ 5 ∨ (5 : ℤ) < -(2 : ℤ)) →
      left_click ⟨[[0, 0], [0, 0]], none, none⟩ 5 0 = none) ∧
    (-(2 : ℤ) ≤ -1 → (-1 : ℤ) < 0 → (0 : ℤ) ≤ 0 → (0 : ℤ) < 2 →
      idx2 [[0, 0], [0, 0]] ((-1 : ℤ) + 2).toNat (0 : ℤ).toNat = some 0 →
      some ((-1 : ℤ), (0 : ℤ)) ≠ none → some ((-1 : ℤ), (0 : ℤ)) ≠ none →
      left_click ⟨[[0, 0], [0, 0]], none, none⟩ (-1) 0 =
        some ⟨set2 [[0, 0], [0, 0]] ((-1 : ℤ) + 2).toNat (0 : ℤ).toNat 1,
          none, none⟩) := by
  refine ⟨by decide, ?_, ?_⟩
  · exact (@C8_out_of_bounds_behavior ⟨[[0, 0], [0, 0]], none, none⟩ 2 2
      (by decide) 5 0).1
  · exact (@C8_out_of_bounds_behavior ⟨[[0, 0], [0, 0]], none, none⟩ 2 2
      (by decide) (-1) 0).2

/-- C4: the obstacle generator does not terminate when fewer eligible cells
exist than the requested count.  On the fully blocked 15 x 15 grid (all walls
placed by hand before Start was chosen) with `wall_count = 56`, every random
draw is rejected: after any number of iterations the grid is unchanged and
`placed` is still `0 < 56`, so the `while placed < wall_count:` loop never
exits, whatever the random stream produces. -/
theorem C4_generate_walls_diverges (rng : ℕ → ℕ × ℕ) (n : ℕ) :
    gw_iter (some (0, 0)) none default_wall_count rng (mkGrid 15 15 1) n =
      (mkGrid 15 15 1, 0) ∧ (0 : ℕ) < default_wall_count := by
  have hblocked : ∀ r c, idx2 (mkGrid 15 15 (1 : ℕ)) r c ≠ some 0 := by
    intro r c h
    by_cases hr : r < 15
    · by_cases hc : c < 15
      · rw [idx2_mkGrid _ _ _ hr hc] at h
        simp at h
      · have hb := idx2_bounds (rect_mkGrid 15 15 1) h
        omega
    · have hb := idx2_bounds (rect_mkGrid 15 15 1) h
      omega
  refine ⟨?_, by decide⟩
  induction n with
  | zero => rfl
  | succ n ih =>
    unfold gw_iter
    rw [ih]
    rw [if_pos (by decide)]
    unfold gw_step
    rw [if_neg (fun hcond => hblocked (rng n).1 (rng n).2 hcond.2.2)]
    rfl

end MazeSolver
